import Mathlib

/-!
# TTree: an arena-backed binary search tree

Shallow embedding of `src/main.cpp` (class `TTree`) and a verification of its
insertion, lookup and traversal operations.

Modelling conventions:

* `std::deque<TNode> Nodes` is a `List (TNode K V)`; `Nodes[i]` is `nodes[i]?`, and reading
  past the end (undefined behaviour in C++) is the result `none`.
* `size_t` indices are `Nat`: an index never exceeds the number of stored nodes, so the
  64-bit wrap-around of `size_t` plays no role.
* The template parameters `TLess` and `TEqual` are the functions `less equal : K → K → Bool`.
* The unbounded `for (;;)` loops of `Add` and `FindPtr` and the recursion of `TraverseInt`
  take a fuel argument; running out of fuel is the result `none`.  The public operations
  start them with fuel `Nodes.size()`, and the theorems below show that on every container
  built by `Add` this is enough, i.e. the result is `some _`.
-/

namespace BST

variable {K V : Type}

/-! ## Data model -/

/-- Arena node of the source: `Left`/`Right` are arena indices, `0` meaning "no child". -/
structure TNode (K V : Type) where
  Left : Nat
  Right : Nat
  Key : K
  Value : V
  Deleted : Bool
deriving DecidableEq

/-- Constructor `TNode(TKey key, TValue val)`: the links default to `0`, `Deleted` to `false`. -/
def TNode.new (key : K) (val : V) : TNode K V :=
  { Left := 0, Right := 0, Key := key, Value := val, Deleted := false }

/-- The container: its only member is the arena `Nodes`. -/
structure TTree (K V : Type) where
  Nodes : List (TNode K V)
deriving DecidableEq

/-- A default-constructed container: the arena is empty. -/
def TTree.empty : TTree K V := { Nodes := [] }

/-! ## `Add` -/

/-- The descent loop of `TTree::Add` (source lines 38-60), started at `curNodeIdx`. -/
def AddLoop (less equal : K → K → Bool) (key : K) (value : V) :
    Nat → List (TNode K V) → Nat → Option (List (TNode K V))
  | 0, _, _ => none
  | fuel + 1, nodes, curNodeIdx =>
    match nodes[curNodeIdx]? with
    | none => none
    | some curNode =>
      if less curNode.Key key then
        if curNode.Right ≠ 0 then
          AddLoop less equal key value fuel nodes curNode.Right
        else
          some (nodes.set curNodeIdx { curNode with Right := nodes.length }
            ++ [TNode.new key value])
      else if equal curNode.Key key then
        some (nodes.set curNodeIdx { curNode with Value := value })
      else
        if curNode.Left ≠ 0 then
          AddLoop less equal key value fuel nodes curNode.Left
        else
          some (nodes.set curNodeIdx { curNode with Left := nodes.length }
            ++ [TNode.new key value])

/-- Method `TTree::Add` (source lines 32-61). -/
def Add (less equal : K → K → Bool) (t : TTree K V) (key : K) (value : V) :
    Option (TTree K V) :=
  if t.Nodes.isEmpty then
    some { Nodes := [TNode.new key value] }
  else
    (AddLoop less equal key value t.Nodes.length t.Nodes 0).map TTree.mk

/-! ## `FindPtr` -/

/-- The descent loop of `TTree::FindPtr` (source lines 68-85).  The inner option is the
returned pointer: `none` for `nullptr`, `some v` for the address of a node's `Value`
holding `v`. -/
def FindLoop (less equal : K → K → Bool) (key : K) :
    Nat → List (TNode K V) → Nat → Option (Option V)
  | 0, _, _ => none
  | fuel + 1, nodes, curNodeIdx =>
    match nodes[curNodeIdx]? with
    | none => none
    | some curNode =>
      if less curNode.Key key then
        if curNode.Right ≠ 0 then
          FindLoop less equal key fuel nodes curNode.Right
        else
          some none
      else if equal curNode.Key key then
        some (some curNode.Value)
      else
        if curNode.Left ≠ 0 then
          FindLoop less equal key fuel nodes curNode.Left
        else
          some none

/-- Method `TTree::FindPtr` (source lines 63-86). -/
def FindPtr (less equal : K → K → Bool) (t : TTree K V) (key : K) : Option (Option V) :=
  if t.Nodes.isEmpty then
    some none
  else
    FindLoop less equal key t.Nodes.length t.Nodes 0

/-! ## `Traverse` -/

/-- The enumeration `ETraverseType`. -/
inductive ETraverseType where
  | PreOrder
  | InOrder
  | PostOrder
deriving DecidableEq

/-- Method `TTree::TraverseInt` (source lines 103-146): `res` is the output vector, passed
through the three steps in the order selected by `type`. -/
def TraverseInt (type : ETraverseType) :
    Nat → List (TNode K V) → List (K × V) → Nat → Option (List (K × V))
  | 0, _, _, _ => none
  | fuel + 1, nodes, res, idx =>
    match nodes[idx]? with
    | none => none
    | some node =>
      let processMid : List (K × V) → Option (List (K × V)) := fun res =>
        some (res ++ [(node.Key, node.Value)])
      let processLeft : List (K × V) → Option (List (K × V)) := fun res =>
        if node.Left ≠ 0 then TraverseInt type fuel nodes res node.Left else some res
      let processRight : List (K × V) → Option (List (K × V)) := fun res =>
        if node.Right ≠ 0 then TraverseInt type fuel nodes res node.Right else some res
      match type with
      | ETraverseType.PreOrder => (processMid res).bind fun r => (processLeft r).bind processRight
      | ETraverseType.InOrder => (processLeft res).bind fun r => (processMid r).bind processRight
      | ETraverseType.PostOrder => (processLeft res).bind fun r => (processRight r).bind processMid

/-- The call `res.clear()` on a `std::vector`: whatever it held, it is empty afterwards. -/
def clear {α : Type} (_res : List α) : List α := []

/-- Method `TTree::Traverse` (source lines 93-100): clears `res`, then walks from index 0. -/
def Traverse (type : ETraverseType) (t : TTree K V) (res : List (K × V)) :
    Option (List (K × V)) :=
  let res := clear res
  if t.Nodes.isEmpty then
    some res
  else
    TraverseInt type t.Nodes.length t.Nodes res 0

/-! ## Containers built by `Add` -/

/-- The container obtained from `t` by the calls `Add(key, value)` for the pairs of `ops`,
in order. -/
def AddAllFrom (less equal : K → K → Bool) : TTree K V → List (K × V) → Option (TTree K V)
  | t, [] => some t
  | t, p :: ops => (Add less equal t p.1 p.2).bind fun t' => AddAllFrom less equal t' ops

/-- The container obtained from the empty one by a sequence of `Add` calls. -/
def AddAll (less equal : K → K → Bool) (ops : List (K × V)) : Option (TTree K V) :=
  AddAllFrom less equal TTree.empty ops

/-- Container states reachable from the empty container via `Add`. -/
inductive Reachable (less equal : K → K → Bool) : TTree K V → Prop where
  | empty : Reachable less equal TTree.empty
  | add {t t' : TTree K V} (key : K) (value : V) :
      Reachable less equal t → Add less equal t key value = some t' → Reachable less equal t'

/-- The default comparator `std::less<TKey>`. -/
def stdLess [LT K] [DecidableRel (fun a b : K => a < b)] (a b : K) : Bool := decide (a < b)

/-- The default comparator `std::equal_to<TKey>`. -/
def stdEqual [DecidableEq K] (a b : K) : Bool := decide (a = b)

/-- The precondition on the comparators: `less` is a strict weak ordering and `equal` is
consistent with it (`equal a b` exactly when neither `less a b` nor `less b a`). -/
structure StrictWeakOrder (less equal : K → K → Bool) : Prop where
  irrefl : ∀ a, less a a = false
  trans : ∀ a b c, less a b = true → less b c = true → less a c = true
  incomp_trans : ∀ a b c, less a b = false → less b a = false → less b c = false →
    less c b = false → less a c = false ∧ less c a = false
  consistent : ∀ a b, equal a b = (!less a b && !less b a)

/-- A strict total order: a strict weak ordering in which distinct keys are comparable. -/
structure StrictTotalOrder (less equal : K → K → Bool) extends StrictWeakOrder less equal :
    Prop where
  total : ∀ a b, a ≠ b → less a b = true ∨ less b a = true

/-! ## The link structure, read as a tree

A `Shape` is the tree that the links of an arena spell out: every node carries its arena
index together with the key and value stored there. -/

/-- Binary trees whose nodes are labelled with an arena index, a key and a value. -/
inductive Shape (K V : Type) where
  | leaf : Shape K V
  | node (l : Shape K V) (i : Nat) (k : K) (v : V) (r : Shape K V) : Shape K V

/-- The link designating a tree: the index of its root, `0` for the empty tree. -/
def Shape.link : Shape K V → Nat
  | Shape.leaf => 0
  | Shape.node _ i _ _ _ => i

/-- Arena indices of a tree, left to right. -/
def Shape.idxs : Shape K V → List Nat
  | Shape.leaf => []
  | Shape.node l i _ _ r => l.idxs ++ i :: r.idxs

/-- Number of nodes on the longest descending path. -/
def Shape.height : Shape K V → Nat
  | Shape.leaf => 0
  | Shape.node l _ _ _ r => max l.height r.height + 1

/-- The pairs of a tree in the order of the given traversal. -/
def Shape.walk (type : ETraverseType) : Shape K V → List (K × V)
  | Shape.leaf => []
  | Shape.node l _ k v r =>
    match type with
    | ETraverseType.PreOrder => (k, v) :: (l.walk type ++ r.walk type)
    | ETraverseType.InOrder => l.walk type ++ (k, v) :: r.walk type
    | ETraverseType.PostOrder => l.walk type ++ (r.walk type ++ [(k, v)])

/-- Search along the comparison path. -/
def Shape.find (less equal : K → K → Bool) (key : K) : Shape K V → Option V
  | Shape.leaf => none
  | Shape.node l _ k v r =>
    if less k key then r.find less equal key
    else if equal k key then some v
    else l.find less equal key

/-- Insertion along the comparison path; a new node receives the index `n`. -/
def Shape.ins (less equal : K → K → Bool) (n : Nat) (key : K) (value : V) :
    Shape K V → Shape K V
  | Shape.leaf => Shape.node Shape.leaf n key value Shape.leaf
  | Shape.node l i k v r =>
    if less k key then Shape.node l i k v (r.ins less equal n key value)
    else if equal k key then Shape.node l i k value r
    else Shape.node (l.ins less equal n key value) i k v r

/-- The arena `nodes` spells out the tree `s`: the node with index `i` is stored at
`nodes[i]`, its links designate its subtrees, and children have larger indices. -/
def Rep (nodes : List (TNode K V)) : Shape K V → Prop
  | Shape.leaf => True
  | Shape.node l i k v r =>
    Rep nodes l ∧ Rep nodes r ∧
    nodes[i]? = some { Left := l.link, Right := r.link, Key := k, Value := v, Deleted := false } ∧
    (∀ j ∈ l.idxs, i < j) ∧ (∀ j ∈ r.idxs, i < j)

/-- The container `t` spells out the tree `s`, rooted at index 0 and using every node. -/
def RepTree (t : TTree K V) (s : Shape K V) : Prop :=
  Rep t.Nodes s ∧ s.link = 0 ∧ s.idxs.Perm (List.range t.Nodes.length)

/-- The tree built by a sequence of insertions, new nodes taking consecutive indices. -/
def Shape.build (less equal : K → K → Bool) : Shape K V → List (K × V) → Shape K V
  | s, [] => s
  | s, p :: ops => Shape.build less equal (s.ins less equal s.idxs.length p.1 p.2) ops

/-- Binary-search-tree ordering of a tree: at every node the keys of the left subtree
compare less than the node's key, which compares less than the keys of the right subtree. -/
def Shape.Ordered (less : K → K → Bool) : Shape K V → Prop
  | Shape.leaf => True
  | Shape.node l _ k _ r =>
    Shape.Ordered less l ∧ Shape.Ordered less r ∧
    (∀ p ∈ l.walk ETraverseType.InOrder, less p.1 k = true) ∧
    (∀ p ∈ r.walk ETraverseType.InOrder, less k p.1 = true)

/-- The effect of one `Add` on a non-empty arena, seen from the node `n` at index `j` where
the descent stops: either `n` matches and its value is replaced, or `n` has a free slot on
the side of `key`, which is linked to a node appended at the end of the arena. -/
def AddEffect (less equal : K → K → Bool) (key : K) (value : V)
    (nodes nodes' : List (TNode K V)) (j : Nat) (n : TNode K V) : Prop :=
  (less n.Key key = false ∧ equal n.Key key = true ∧
    nodes' = nodes.set j { n with Value := value }) ∨
  (less n.Key key = true ∧ n.Right = 0 ∧
    nodes' = nodes.set j { n with Right := nodes.length } ++ [TNode.new key value]) ∨
  (less n.Key key = false ∧ equal n.Key key = false ∧ n.Left = 0 ∧
    nodes' = nodes.set j { n with Left := nodes.length } ++ [TNode.new key value])

/-! ## Reference notions used to state the properties -/

/-- The value of the last pair of `ops` whose key matches `k` under `equal`, if any. -/
def lastAdd (equal : K → K → Bool) (k : K) (ops : List (K × V)) : Option V :=
  ((ops.filter fun p => equal p.1 k).getLast?).map Prod.snd

/-- Keeps, for each distinct key, only the last pair carrying it. -/
def keepLast [DecidableEq K] : List (K × V) → List (K × V)
  | [] => []
  | p :: ops => if ops.any (fun q => decide (q.1 = p.1)) then keepLast ops
      else p :: keepLast ops

/-- Stable sort of a list of pairs by key, as the reference the test driver compares with. -/
def sortByKey [LinearOrder K] (l : List (K × V)) : List (K × V) :=
  l.insertionSort fun a b => a.1 ≤ b.1

/-- The relation `Below nodes i j`: the node at index `j` belongs to the subtree reached
through the link `i`, i.e. `j` is `i` itself or lies below a child link of a node of that
subtree. -/
inductive Below (nodes : List (TNode K V)) : Nat → Nat → Prop where
  | self (i : Nat) : Below nodes i i
  | left {i j : Nat} {n : TNode K V} :
      nodes[i]? = some n → n.Left ≠ 0 → Below nodes n.Left j → Below nodes i j
  | right {i j : Nat} {n : TNode K V} :
      nodes[i]? = some n → n.Right ≠ 0 → Below nodes n.Right j → Below nodes i j

/-- The keys of `ks` that match none of the keys before them (nor of `seen`), appended to
`seen`: one representative for every class of `equal` keys. -/
def distinctFrom (equal : K → K → Bool) : List K → List K → List K
  | seen, [] => seen
  | seen, k :: ks =>
    if seen.any (fun x => equal x k) then distinctFrom equal seen ks
    else distinctFrom equal (seen ++ [k]) ks

/-- The distinct (pairwise non-`equal`) keys that occur in a sequence of keys. -/
def distinctKeys (equal : K → K → Bool) (ks : List K) : List K :=
  distinctFrom equal [] ks

/-- The insertions of the concrete scenario of the specification. -/
def exampleOps : List (Int × String) := [(5, "a"), (3, "b"), (8, "c"), (3, "d")]

/-- The arena that the insertions `exampleOps` produce. -/
def exampleTree : TTree Int String :=
  { Nodes := [
      { Left := 1, Right := 2, Key := 5, Value := "a", Deleted := false },
      { Left := 0, Right := 0, Key := 3, Value := "d", Deleted := false },
      { Left := 0, Right := 0, Key := 8, Value := "c", Deleted := false }] }

/-- The non-zero child links stored in a node. -/
def linksOf (n : TNode K V) : List Nat :=
  [n.Left, n.Right].filter fun c => decide (c ≠ 0)

/-- All child links of an arena: the non-zero `Left` and `Right` fields of all its nodes,
each occurrence listed once. -/
def childLinks (nodes : List (TNode K V)) : List Nat :=
  nodes.flatMap linksOf

/-- The root index of a tree as a list: empty for the empty tree. -/
def Shape.rootIdx : Shape K V → List Nat
  | Shape.leaf => []
  | Shape.node _ i _ _ _ => [i]

/-- The right-only chain holding the given pairs at consecutive indices from `i` on. -/
def Shape.spine : Nat → List (K × V) → Shape K V
  | _, [] => Shape.leaf
  | i, p :: rest => Shape.node Shape.leaf i p.1 p.2 (Shape.spine (i + 1) rest)

/-- A comparator that is no ordering: it answers "less" for every pair of keys. -/
def alwaysLess (_a _b : Int) : Bool := true

/-- An equality comparator that is not consistent with `std::less`: it identifies the keys
with the same remainder modulo 10. -/
def mod10Equal (a b : Int) : Bool := decide (a % 10 = b % 10)

/-! ## Representation lemmas -/

theorem Shape.link_node (l : Shape K V) (i : Nat) (k : K) (v : V) (r : Shape K V) :
    (Shape.node l i k v r).link = i := rfl

theorem Shape.link_leaf : (Shape.leaf : Shape K V).link = 0 := rfl

theorem Shape.link_mem_idxs {s : Shape K V} (h : s ≠ Shape.leaf) : s.link ∈ s.idxs := by
  cases s with
  | leaf => exact absurd rfl h
  | node l i k v r => simp [Shape.link, Shape.idxs]

theorem Shape.child_cases {s : Shape K V} {i : Nat} (h : ∀ j ∈ s.idxs, i < j) :
    (s = Shape.leaf ∧ s.link = 0) ∨ (s ≠ Shape.leaf ∧ s.link ≠ 0) := by
  cases s with
  | leaf => exact Or.inl ⟨rfl, rfl⟩
  | node l j k v r =>
    refine Or.inr ⟨by simp, ?_⟩
    have := h j (by simp [Shape.idxs])
    simp only [Shape.link_node]
    omega

theorem Rep.idx_lt {nodes : List (TNode K V)} {s : Shape K V} (h : Rep nodes s) :
    ∀ j ∈ s.idxs, j < nodes.length := by
  induction s with
  | leaf => simp [Shape.idxs]
  | node l i k v r ihl ihr =>
    obtain ⟨hl, hr, hi, -, -⟩ := h
    intro j hj
    simp only [Shape.idxs, List.mem_append, List.mem_cons] at hj
    rcases hj with hj | rfl | hj
    · exact ihl hl j hj
    · exact (List.getElem?_eq_some_iff.mp hi).1
    · exact ihr hr j hj

theorem Rep.height_le {nodes : List (TNode K V)} {s : Shape K V} (h : Rep nodes s) :
    ∀ b, (∀ j ∈ s.idxs, b ≤ j) → s.height ≤ nodes.length - b := by
  induction s with
  | leaf => intro b _; simp [Shape.height]
  | node l i k v r ihl ihr =>
    obtain ⟨hl, hr, hi, hli, hri⟩ := h
    intro b hb
    have h1 := ihl hl (i + 1) (fun j hj => hli j hj)
    have h2 := ihr hr (i + 1) (fun j hj => hri j hj)
    have h3 : i < nodes.length := (List.getElem?_eq_some_iff.mp hi).1
    have h4 : b ≤ i := hb i (by simp [Shape.idxs])
    simp only [Shape.height]
    omega

theorem Rep.frame {nodes nodes' : List (TNode K V)} {s : Shape K V} (h : Rep nodes s)
    (hf : ∀ j ∈ s.idxs, nodes'[j]? = nodes[j]?) : Rep nodes' s := by
  induction s with
  | leaf => trivial
  | node l i k v r ihl ihr =>
    obtain ⟨hl, hr, hi, hli, hri⟩ := h
    refine ⟨ihl hl fun j hj => hf j (by simp [Shape.idxs, hj]),
      ihr hr fun j hj => hf j (by simp [Shape.idxs, hj]), ?_, hli, hri⟩
    rw [hf i (by simp [Shape.idxs])]
    exact hi

theorem traverseInt_spec (type : ETraverseType) {nodes : List (TNode K V)} {s : Shape K V}
    (h : Rep nodes s) (hne : s ≠ Shape.leaf) :
    ∀ fuel res, s.height ≤ fuel →
      TraverseInt type fuel nodes res s.link = some (res ++ s.walk type) := by
  induction s with
  | leaf => exact absurd rfl hne
  | node l i k v r ihl ihr =>
    obtain ⟨hl, hr, hi, hli, hri⟩ := h
    intro fuel res hfuel
    cases fuel with
    | zero => simp [Shape.height] at hfuel
    | succ fuel =>
      simp only [Shape.height, Nat.add_le_add_iff_right] at hfuel
      have hL : ∀ res, (if l.link ≠ 0 then TraverseInt type fuel nodes res l.link else some res)
          = some (res ++ l.walk type) := by
        intro res
        rcases Shape.child_cases hli with ⟨h1, h2⟩ | ⟨h1, h2⟩
        · subst h1; simp [Shape.walk, Shape.link_leaf]
        · rw [if_pos h2]; exact ihl hl h1 fuel res (by omega)
      have hR : ∀ res, (if r.link ≠ 0 then TraverseInt type fuel nodes res r.link else some res)
          = some (res ++ r.walk type) := by
        intro res
        rcases Shape.child_cases hri with ⟨h1, h2⟩ | ⟨h1, h2⟩
        · subst h1; simp [Shape.walk, Shape.link_leaf]
        · rw [if_pos h2]; exact ihr hr h1 fuel res (by omega)
      simp only [TraverseInt, Shape.link_node, hi]
      cases type <;> simp [hL, hR, Shape.walk]

theorem findLoop_spec (less equal : K → K → Bool) (key : K) {nodes : List (TNode K V)}
    {s : Shape K V} (h : Rep nodes s) (hne : s ≠ Shape.leaf) :
    ∀ fuel, s.height ≤ fuel →
      FindLoop less equal key fuel nodes s.link = some (s.find less equal key) := by
  induction s with
  | leaf => exact absurd rfl hne
  | node l i k v r ihl ihr =>
    obtain ⟨hl, hr, hi, hli, hri⟩ := h
    intro fuel hfuel
    cases fuel with
    | zero => simp [Shape.height] at hfuel
    | succ fuel =>
      simp only [Shape.height, Nat.add_le_add_iff_right] at hfuel
      simp only [FindLoop, Shape.link_node, hi, Shape.find]
      by_cases h1 : less k key = true
      · simp only [h1, if_true]
        rcases Shape.child_cases hri with ⟨h2, h3⟩ | ⟨h2, h3⟩
        · subst h2; simp [Shape.find, Shape.link_leaf]
        · rw [if_pos h3]; exact ihr hr h2 fuel (by omega)
      · simp only [h1, if_false]
        by_cases h4 : equal k key = true
        · simp [h4]
        · simp only [h4, if_false]
          rcases Shape.child_cases hli with ⟨h2, h3⟩ | ⟨h2, h3⟩
          · subst h2; simp [Shape.find, Shape.link_leaf]
          · rw [if_pos h3]; exact ihl hl h2 fuel (by omega)
theorem getElem?_set_append {α : Type} (xs : List α) (i j : Nat) (x y : α)
    (hj : j < xs.length) : (xs.set i x ++ [y])[j]? = if i = j then some x else xs[j]? := by
  rw [List.getElem?_append_left (by simpa using hj), List.getElem?_set]
  by_cases h : i = j
  · subst h; simp [hj]
  · simp [h]

theorem getElem?_set_append_length {α : Type} (xs : List α) (i : Nat) (x y : α) :
    (xs.set i x ++ [y])[xs.length]? = some y := by
  rw [List.getElem?_append_right (by simp)]
  simp

theorem AddEffect.getElem?_other {less equal : K → K → Bool} {key : K} {value : V}
    {nodes nodes' : List (TNode K V)} {j : Nat} {n : TNode K V}
    (h : AddEffect less equal key value nodes nodes' j n) (i : Nat) (hij : i ≠ j)
    (hi : i < nodes.length) : nodes'[i]? = nodes[i]? := by
  rcases h with ⟨-, -, rfl⟩ | ⟨-, -, rfl⟩ | ⟨-, -, -, rfl⟩
  · rw [List.getElem?_set]; simp [Ne.symm hij]
  · rw [getElem?_set_append _ _ _ _ _ hi]; simp [Ne.symm hij]
  · rw [getElem?_set_append _ _ _ _ _ hi]; simp [Ne.symm hij]

theorem Shape.ins_link (less equal : K → K → Bool) (n : Nat) (key : K) (value : V)
    {s : Shape K V} (h : s ≠ Shape.leaf) : (s.ins less equal n key value).link = s.link := by
  cases s with
  | leaf => exact absurd rfl h
  | node l i k v r =>
    simp only [Shape.ins]
    split_ifs <;> rfl

theorem Shape.mem_ins_idxs (less equal : K → K → Bool) (n : Nat) (key : K) (value : V)
    (s : Shape K V) : ∀ j ∈ (s.ins less equal n key value).idxs, j = n ∨ j ∈ s.idxs := by
  induction s with
  | leaf => intro j hj; simpa [Shape.ins, Shape.idxs] using hj
  | node l i k v r ihl ihr =>
    intro j hj
    simp only [Shape.ins] at hj
    split_ifs at hj
    · simp only [Shape.idxs, List.mem_append, List.mem_cons] at hj ⊢
      rcases hj with hj | hj | hj
      · exact Or.inr (Or.inl hj)
      · exact Or.inr (Or.inr (Or.inl hj))
      · rcases ihr j hj with h | h
        · exact Or.inl h
        · exact Or.inr (Or.inr (Or.inr h))
    · exact Or.inr hj
    · simp only [Shape.idxs, List.mem_append, List.mem_cons] at hj ⊢
      rcases hj with hj | hj | hj
      · rcases ihl j hj with h | h
        · exact Or.inl h
        · exact Or.inr (Or.inl h)
      · exact Or.inr (Or.inr (Or.inl hj))
      · exact Or.inr (Or.inr (Or.inr hj))

theorem addLoop_spec (less equal : K → K → Bool) (key : K) (value : V)
    {nodes : List (TNode K V)} {s : Shape K V}
    (h : Rep nodes s) (hne : s ≠ Shape.leaf) (hnd : s.idxs.Nodup) :
    ∀ fuel, s.height ≤ fuel →
      ∃ nodes', AddLoop less equal key value fuel nodes s.link = some nodes' ∧
        Rep nodes' (s.ins less equal nodes.length key value) ∧
        ∃ j ∈ s.idxs, ∃ n, nodes[j]? = some n ∧
          AddEffect less equal key value nodes nodes' j n ∧
          ((s.find less equal key).isSome = true ↔
            (less n.Key key = false ∧ equal n.Key key = true)) := by
  induction s with
  | leaf => exact absurd rfl hne
  | node l i k v r ihl ihr =>
    have hlt := h.idx_lt
    obtain ⟨hl, hr, hi, hli, hri⟩ := h
    intro fuel hfuel
    have hilt : i < nodes.length := (List.getElem?_eq_some_iff.mp hi).1
    simp only [Shape.idxs, List.nodup_append, List.nodup_cons] at hnd
    obtain ⟨hndl, ⟨hir, hndr⟩, hdisj⟩ := hnd
    have hil : i ∉ l.idxs := fun hmem => absurd (hli i hmem) (lt_irrefl _)
    cases fuel with
    | zero => simp [Shape.height] at hfuel
    | succ fuel =>
      simp only [Shape.height, Nat.add_le_add_iff_right] at hfuel
      simp only [AddLoop, Shape.link_node, hi, Shape.ins, Shape.find]
      by_cases h1 : less k key = true
      · simp only [h1, if_true]
        rcases Shape.child_cases hri with ⟨h2, h3⟩ | ⟨h2, h3⟩
        · subst h2
          simp only [Shape.link_leaf, ne_eq, not_true_eq_false, if_false, Shape.ins]
          refine ⟨_, rfl, ⟨?_, ?_, ?_, hli, ?_⟩, i, by simp [Shape.idxs], _, hi, ?_, ?_⟩
          · refine hl.frame fun j hj => ?_
            rw [getElem?_set_append _ _ _ _ _ (hlt j (by simp [Shape.idxs, hj]))]
            have : i ≠ j := fun e => hil (e ▸ hj)
            simp [this]
          · refine ⟨trivial, trivial, ?_, by simp [Shape.idxs], by simp [Shape.idxs]⟩
            rw [getElem?_set_append_length]; rfl
          · rw [getElem?_set_append _ _ _ _ _ hilt]; simp [Shape.link_node]
          · intro j hj
            simp only [Shape.idxs, List.nil_append, List.mem_singleton] at hj
            omega
          · exact Or.inr (Or.inl ⟨h1, rfl, rfl⟩)
          · simp [Shape.find, h1]
        · rw [if_pos h3]
          obtain ⟨nodes', hrun, hrep, j, hj, n, hn, heff, hfound⟩ := ihr hr h2 hndr fuel (by omega)
          have hji : j ≠ i := fun e => hir (e ▸ hj)
          refine ⟨nodes', hrun, ⟨?_, hrep, ?_, hli, ?_⟩, j, by simp [Shape.idxs, hj], n, hn,
            heff, hfound⟩
          · refine hl.frame fun j' hj' => heff.getElem?_other j' ?_ (hlt j' (by simp [Shape.idxs, hj']))
            exact fun e => hdisj (e ▸ hj') (List.mem_cons_of_mem _ hj)
          · rw [heff.getElem?_other i (Ne.symm hji) hilt, Shape.ins_link less equal _ key value h2]
            exact hi
          · intro j' hj'
            rcases Shape.mem_ins_idxs less equal _ key value r j' hj' with e | e
            · omega
            · exact hri j' e
      · simp only [h1, if_false]
        have h1' : less k key = false := by simpa using h1
        by_cases h4 : equal k key = true
        · simp only [h4, if_true]
          refine ⟨_, rfl, ⟨?_, ?_, ?_, hli, hri⟩, i, by simp [Shape.idxs], _, hi, ?_, ?_⟩
          · refine hl.frame fun j hj => ?_
            have : i ≠ j := fun e => hil (e ▸ hj)
            rw [List.getElem?_set]; simp [this]
          · refine hr.frame fun j hj => ?_
            have : i ≠ j := fun e => hir (e ▸ hj)
            rw [List.getElem?_set]; simp [this]
          · rw [List.getElem?_set]; simp [hilt]
          · exact Or.inl ⟨h1', h4, rfl⟩
          · simp [h1', h4]
        · simp only [h4, if_false]
          have h4' : equal k key = false := by simpa using h4
          rcases Shape.child_cases hli with ⟨h2, h3⟩ | ⟨h2, h3⟩
          · subst h2
            simp only [Shape.link_leaf, ne_eq, not_true_eq_false, if_false, Shape.ins]
            refine ⟨_, rfl, ⟨?_, ?_, ?_, ?_, hri⟩, i, by simp [Shape.idxs], _, hi, ?_, ?_⟩
            · refine ⟨trivial, trivial, ?_, by simp [Shape.idxs], by simp [Shape.idxs]⟩
              rw [getElem?_set_append_length]; rfl
            · refine hr.frame fun j hj => ?_
              rw [getElem?_set_append _ _ _ _ _ (hlt j (by simp [Shape.idxs, hj]))]
              have : i ≠ j := fun e => hir (e ▸ hj)
              simp [this]
            · rw [getElem?_set_append _ _ _ _ _ hilt]; simp [Shape.link_node]
            · intro j hj
              simp only [Shape.idxs, List.nil_append, List.mem_singleton] at hj
              omega
            · exact Or.inr (Or.inr ⟨h1', h4', rfl, rfl⟩)
            · simp [Shape.find, h1', h4']
          · rw [if_pos h3]
            obtain ⟨nodes', hrun, hrep, j, hj, n, hn, heff, hfound⟩ :=
              ihl hl h2 hndl fuel (by omega)
            have hji : j ≠ i := fun e => hil (e ▸ hj)
            refine ⟨nodes', hrun, ⟨hrep, ?_, ?_, ?_, hri⟩, j, by simp [Shape.idxs, hj], n, hn,
              heff, hfound⟩
            · refine hr.frame fun j' hj' => heff.getElem?_other j' ?_ (hlt j' (by simp [Shape.idxs, hj']))
              exact fun e => hdisj hj (e ▸ List.mem_cons_of_mem _ hj')
            · rw [heff.getElem?_other i (Ne.symm hji) hilt, Shape.ins_link less equal _ key value h2]
              exact hi
            · intro j' hj'
              rcases Shape.mem_ins_idxs less equal _ key value l j' hj' with e | e
              · omega
              · exact hli j' e
theorem Shape.ins_idxs_perm (less equal : K → K → Bool) (n : Nat) (key : K) (value : V)
    (s : Shape K V) :
    (s.ins less equal n key value).idxs.Perm
      (if (s.find less equal key).isSome then s.idxs else n :: s.idxs) := by
  induction s with
  | leaf => simp [Shape.ins, Shape.find, Shape.idxs]
  | node l i k v r ihl ihr =>
    simp only [Shape.ins, Shape.find]
    by_cases h1 : less k key = true
    · simp only [h1, if_true, Shape.idxs]
      by_cases hf : (r.find less equal key).isSome = true
      · simp only [hf, if_true] at ihr ⊢
        exact (ihr.cons i).append_left _
      · simp only [hf] at ihr ⊢
        refine (List.Perm.append_left _ (ihr.cons i)).trans ?_
        refine (List.Perm.append_left _ (List.Perm.swap _ _ _)).trans ?_
        exact List.perm_middle
    · have h1' : less k key = false := by simpa using h1
      simp only [h1', Bool.false_eq_true, if_false]
      by_cases h4 : equal k key = true
      · simp [h4, Shape.idxs]
      · have h4' : equal k key = false := by simpa using h4
        simp only [h4', Bool.false_eq_true, if_false, Shape.idxs]
        by_cases hf : (l.find less equal key).isSome = true
        · simp only [hf, if_true] at ihl ⊢
          exact ihl.append_right _
        · simp only [hf] at ihl ⊢
          exact ihl.append_right _

theorem RepTree.leaf_iff {t : TTree K V} {s : Shape K V} (h : RepTree t s) :
    s = Shape.leaf ↔ t.Nodes = [] := by
  obtain ⟨-, -, hp⟩ := h
  constructor
  · rintro rfl
    have := hp.length_eq
    simpa [Shape.idxs, eq_comm] using this
  · intro e
    rw [e] at hp
    cases s with
    | leaf => rfl
    | node l i k v r =>
      have := hp.length_eq
      simp [Shape.idxs] at this

theorem RepTree.idxs_length {t : TTree K V} {s : Shape K V} (h : RepTree t s) :
    s.idxs.length = t.Nodes.length := by
  simpa using h.2.2.length_eq

theorem RepTree.height_le_length {t : TTree K V} {s : Shape K V} (h : RepTree t s) :
    s.height ≤ t.Nodes.length := by
  simpa using h.1.height_le 0 (fun _ _ => Nat.zero_le _)

theorem RepTree.empty_leaf : RepTree (TTree.empty : TTree K V) Shape.leaf :=
  ⟨trivial, rfl, by simp [TTree.empty, Shape.idxs]⟩

theorem AddEffect.length_result {less equal : K → K → Bool} {key : K} {value : V}
    {nodes nodes' : List (TNode K V)} {j : Nat} {n : TNode K V}
    (h : AddEffect less equal key value nodes nodes' j n) :
    nodes'.length =
      if less n.Key key = false ∧ equal n.Key key = true then nodes.length
      else nodes.length + 1 := by
  rcases h with ⟨h1, h2, rfl⟩ | ⟨h1, -, rfl⟩ | ⟨h1, h2, -, rfl⟩
  · simp [h1, h2]
  · simp [h1]
  · simp [h1, h2]

theorem add_spec (less equal : K → K → Bool) (key : K) (value : V) {t : TTree K V}
    {s : Shape K V} (h : RepTree t s) :
    ∃ t', Add less equal t key value = some t' ∧
      RepTree t' (s.ins less equal t.Nodes.length key value) ∧
      (t.Nodes = [] ∧ t'.Nodes = [TNode.new key value] ∨
        ∃ j n, t.Nodes[j]? = some n ∧ AddEffect less equal key value t.Nodes t'.Nodes j n ∧
          ((s.find less equal key).isSome = true ↔
            (less n.Key key = false ∧ equal n.Key key = true))) := by
  by_cases he : t.Nodes = []
  · have hs : s = Shape.leaf := h.leaf_iff.mpr he
    subst hs
    refine ⟨{ Nodes := [TNode.new key value] }, by simp [Add, he], ?_, Or.inl ⟨he, rfl⟩⟩
    refine ⟨⟨trivial, trivial, ?_, by simp [Shape.idxs], by simp [Shape.idxs]⟩, ?_, ?_⟩
    · simp [he, TNode.new, Shape.link_leaf]
    · simp [Shape.ins, Shape.link_node, he]
    · simp [Shape.ins, Shape.idxs, he, List.range_succ]
  · have hs : s ≠ Shape.leaf := fun e => he (h.leaf_iff.mp e)
    have hnd : s.idxs.Nodup := h.2.2.nodup_iff.mpr (List.nodup_range _)
    obtain ⟨nodes', hrun, hrep, j, hj, n, hn, heff, hfound⟩ :=
      addLoop_spec less equal key value h.1 hs hnd t.Nodes.length h.height_le_length
    rw [h.2.1] at hrun
    refine ⟨{ Nodes := nodes' }, ?_, ⟨hrep, ?_, ?_⟩, Or.inr ⟨j, n, hn, heff, hfound⟩⟩
    · simp [Add, he, hrun]
    · rw [Shape.ins_link less equal _ key value hs]; exact h.2.1
    · refine (Shape.ins_idxs_perm less equal _ key value s).trans ?_
      have hlen := heff.length_result
      by_cases hf : (s.find less equal key).isSome = true
      · rw [if_pos (hfound.mp hf)] at hlen
        simp only [hf, if_true, hlen]
        exact h.2.2
      · rw [if_neg (fun e => hf (hfound.mpr e))] at hlen
        simp only [hf, hlen, List.range_succ]
        exact (List.perm_append_singleton _ _).symm.trans (h.2.2.append_right _)

theorem Reachable.exists_rep {less equal : K → K → Bool} {t : TTree K V}
    (h : Reachable less equal t) : ∃ s, RepTree t s := by
  induction h with
  | empty => exact ⟨Shape.leaf, RepTree.empty_leaf⟩
  | add key value _ hadd ih =>
    obtain ⟨s, hs⟩ := ih
    obtain ⟨t', ht', hrep, -⟩ := add_spec less equal key value hs
    rw [ht'] at hadd
    cases hadd
    exact ⟨_, hrep⟩

theorem addAllFrom_spec (less equal : K → K → Bool) (ops : List (K × V)) :
    ∀ (t : TTree K V) (s : Shape K V), RepTree t s →
      ∃ t', AddAllFrom less equal t ops = some t' ∧ RepTree t' (Shape.build less equal s ops) := by
  induction ops with
  | nil => intro t s h; exact ⟨t, rfl, h⟩
  | cons p ops ih =>
    intro t s h
    obtain ⟨t1, ht1, hrep, -⟩ := add_spec less equal p.1 p.2 h
    obtain ⟨t', ht', hrep'⟩ := ih t1 _ hrep
    refine ⟨t', by simp [AddAllFrom, ht1, ht'], ?_⟩
    simp only [Shape.build, h.idxs_length]
    exact hrep'

theorem addAll_spec (less equal : K → K → Bool) (ops : List (K × V)) :
    ∃ t, AddAll less equal ops = some t ∧ RepTree t (Shape.build less equal Shape.leaf ops) :=
  addAllFrom_spec less equal ops _ _ RepTree.empty_leaf

theorem traverse_spec (type : ETraverseType) {t : TTree K V} {s : Shape K V}
    (h : RepTree t s) (res : List (K × V)) : Traverse type t res = some (s.walk type) := by
  by_cases he : t.Nodes = []
  · have hs : s = Shape.leaf := h.leaf_iff.mpr he
    subst hs
    simp [Traverse, he, clear, Shape.walk]
  · have hs : s ≠ Shape.leaf := fun e => he (h.leaf_iff.mp e)
    have := traverseInt_spec type h.1 hs t.Nodes.length [] h.height_le_length
    rw [h.2.1] at this
    simp [Traverse, he, clear, this]

theorem findPtr_spec (less equal : K → K → Bool) (key : K) {t : TTree K V} {s : Shape K V}
    (h : RepTree t s) : FindPtr less equal t key = some (s.find less equal key) := by
  by_cases he : t.Nodes = []
  · have hs : s = Shape.leaf := h.leaf_iff.mpr he
    subst hs
    simp [FindPtr, he, Shape.find]
  · have hs : s ≠ Shape.leaf := fun e => he (h.leaf_iff.mp e)
    have := findLoop_spec less equal key h.1 hs t.Nodes.length h.height_le_length
    rw [h.2.1] at this
    simp [FindPtr, he, this]

theorem Shape.walk_perm_inorder (type : ETraverseType) (s : Shape K V) :
    (s.walk type).Perm (s.walk ETraverseType.InOrder) := by
  induction s with
  | leaf => simp [Shape.walk]
  | node l i k v r ihl ihr =>
    cases type
    · simp only [Shape.walk]
      exact ((ihl.append ihr).cons _).trans List.perm_middle.symm
    · exact List.Perm.refl _
    · simp only [Shape.walk]
      refine (ihl.append (ihr.append_right _)).trans ?_
      exact List.Perm.append_left _ (List.perm_append_singleton _ _)

theorem Rep.walk_eq {nodes : List (TNode K V)} {s : Shape K V} (h : Rep nodes s) :
    s.walk ETraverseType.InOrder =
      s.idxs.filterMap fun i => nodes[i]?.map fun n => (n.Key, n.Value) := by
  induction s with
  | leaf => simp [Shape.walk, Shape.idxs]
  | node l i k v r ihl ihr =>
    obtain ⟨hl, hr, hi, -, -⟩ := h
    simp [Shape.walk, Shape.idxs, List.filterMap_append, List.filterMap_cons, hi, ← ihl hl,
      ← ihr hr]

theorem filterMap_range_getElem? {α β : Type} (f : α → β) (xs : List α) :
    (List.range xs.length).filterMap (fun i => xs[i]?.map f) = xs.map f := by
  induction xs using List.reverseRecOn with
  | nil => simp
  | append_singleton xs x ih =>
    rw [List.length_append, List.length_singleton, List.range_succ, List.filterMap_append,
      List.map_append]
    congr 1
    · rw [← ih]
      apply List.filterMap_congr
      intro i hi
      rw [List.getElem?_append_left (List.mem_range.mp hi)]
    · simp

theorem RepTree.walk_perm_nodes (type : ETraverseType) {t : TTree K V} {s : Shape K V}
    (h : RepTree t s) : (s.walk type).Perm (t.Nodes.map fun n => (n.Key, n.Value)) := by
  refine (Shape.walk_perm_inorder type s).trans ?_
  rw [h.1.walk_eq, ← filterMap_range_getElem?]
  exact h.2.2.filterMap _
namespace StrictWeakOrder

variable {less equal : K → K → Bool}

theorem equal_iff (h : StrictWeakOrder less equal) (a b : K) :
    equal a b = true ↔ less a b = false ∧ less b a = false := by
  rw [h.consistent]; simp

theorem equal_refl (h : StrictWeakOrder less equal) (a : K) : equal a a = true :=
  (h.equal_iff a a).mpr ⟨h.irrefl a, h.irrefl a⟩

theorem equal_symm (h : StrictWeakOrder less equal) {a b : K} (hab : equal a b = true) :
    equal b a = true :=
  (h.equal_iff b a).mpr ((h.equal_iff a b).mp hab).symm

theorem equal_trans (h : StrictWeakOrder less equal) {a b c : K} (hab : equal a b = true)
    (hbc : equal b c = true) : equal a c = true := by
  obtain ⟨h1, h2⟩ := (h.equal_iff a b).mp hab
  obtain ⟨h3, h4⟩ := (h.equal_iff b c).mp hbc
  exact (h.equal_iff a c).mpr (h.incomp_trans a b c h1 h2 h3 h4)

theorem less_of_not (h : StrictWeakOrder less equal) {a b : K} (h1 : less a b = false)
    (h2 : equal a b = false) : less b a = true := by
  by_contra h3
  have h3' : less b a = false := by simpa using h3
  rw [(h.equal_iff a b).mpr ⟨h1, h3'⟩] at h2
  exact Bool.noConfusion h2

theorem not_equal_of_less (h : StrictWeakOrder less equal) {a b : K} (h1 : less a b = true) :
    equal a b = false := by
  by_contra h2
  have h2' : equal a b = true := by simpa using h2
  rw [((h.equal_iff a b).mp h2').1] at h1
  exact Bool.noConfusion h1

theorem not_equal_of_less' (h : StrictWeakOrder less equal) {a b : K} (h1 : less a b = true) :
    equal b a = false := by
  by_contra h2
  have h2' : equal b a = true := by simpa using h2
  rw [((h.equal_iff b a).mp h2').2] at h1
  exact Bool.noConfusion h1

theorem less_of_less_of_equal (h : StrictWeakOrder less equal) {a b c : K}
    (hab : less a b = true) (hbc : equal b c = true) : less a c = true := by
  by_contra hac
  have hac' : less a c = false := by simpa using hac
  obtain ⟨h3, h4⟩ := (h.equal_iff b c).mp hbc
  by_cases hca : less c a = true
  · rw [h.trans c a b hca hab] at h4
    exact Bool.noConfusion h4
  · have hca' : less c a = false := by simpa using hca
    rw [(h.incomp_trans a c b hac' hca' h4 h3).1] at hab
    exact Bool.noConfusion hab

theorem less_of_equal_of_less (h : StrictWeakOrder less equal) {a b c : K}
    (hab : equal a b = true) (hbc : less b c = true) : less a c = true := by
  by_contra hac
  have hac' : less a c = false := by simpa using hac
  obtain ⟨h3, h4⟩ := (h.equal_iff a b).mp hab
  by_cases hca : less c a = true
  · rw [h.trans b c a hbc hca] at h4
    exact Bool.noConfusion h4
  · have hca' : less c a = false := by simpa using hca
    rw [(h.incomp_trans b a c h4 h3 hac' hca').1] at hbc
    exact Bool.noConfusion hbc

theorem less_congr_right (h : StrictWeakOrder less equal) {b c : K} (hbc : equal b c = true)
    (a : K) : less a b = less a c := by
  cases hab : less a b
  · cases hac : less a c
    · rfl
    · rw [h.less_of_less_of_equal hac (h.equal_symm hbc)] at hab
      exact Bool.noConfusion hab
  · exact (h.less_of_less_of_equal hab hbc).symm

theorem equal_congr_right (h : StrictWeakOrder less equal) {b c : K} (hbc : equal b c = true)
    (a : K) : equal a b = equal a c := by
  cases hab : equal a b
  · cases hac : equal a c
    · rfl
    · rw [h.equal_trans hac (h.equal_symm hbc)] at hab
      exact Bool.noConfusion hab
  · exact (h.equal_trans hab hbc).symm

end StrictWeakOrder

theorem Shape.find_ins {less equal : K → K → Bool} (h : StrictWeakOrder less equal)
    (n : Nat) (key : K) (value : V) (k : K) (s : Shape K V) :
    (s.ins less equal n key value).find less equal k =
      if equal key k then some value else s.find less equal k := by
  induction s with
  | leaf =>
    simp only [Shape.ins, Shape.find]
    cases hkk : equal key k
    · simp
    · simp [((h.equal_iff key k).mp hkk).1]
  | node l i k0 v0 r ihl ihr =>
    simp only [Shape.ins]
    cases h1 : less k0 key
    · cases h2 : equal k0 key
      · simp only [Bool.false_eq_true, if_false, Shape.find]
        cases h3 : less k0 k
        · cases h4 : equal k0 k
          · simp only [Bool.false_eq_true, if_false]
            exact ihl
          · have : equal key k = false := by
              have hlt := h.less_of_not h1 h2
              exact h.not_equal_of_less (h.less_of_less_of_equal hlt h4)
            simp [this]
        · have : equal key k = false := by
            have hlt := h.less_of_not h1 h2
            exact h.not_equal_of_less (h.trans _ _ _ hlt h3)
          simp [this]
      · simp only [Bool.false_eq_true, if_false, if_true, Shape.find]
        cases h5 : equal key k
        · cases h3 : less k0 k
          · cases h4 : equal k0 k
            · simp
            · rw [h.equal_trans (h.equal_symm h2) h4] at h5
              exact Bool.noConfusion h5
          · simp
        · have h4 : equal k0 k = true := h.equal_trans h2 h5
          simp [((h.equal_iff k0 k).mp h4).1, h4]
    · simp only [if_true, Shape.find]
      cases h3 : less k0 k
      · have h5 : equal key k = false := by
          by_contra h6
          have h6' : equal key k = true := by simpa using h6
          rw [h.less_of_less_of_equal h1 h6'] at h3
          exact Bool.noConfusion h3
        simp [h5]
      · simp only [if_true]
        exact ihr
theorem lastAdd_nil (equal : K → K → Bool) (k : K) :
    lastAdd equal k ([] : List (K × V)) = none := rfl

theorem lastAdd_cons (equal : K → K → Bool) (k : K) (p : K × V) (ops : List (K × V)) :
    lastAdd equal k (p :: ops) =
      match lastAdd equal k ops with
      | some v => some v
      | none => if equal p.1 k then some p.2 else none := by
  unfold lastAdd
  rw [List.filter_cons]
  cases hq : equal p.1 k
  · simp only [Bool.false_eq_true, if_false]
    cases ((ops.filter fun p => equal p.1 k).getLast?).map Prod.snd <;> rfl
  · simp only [if_true, List.getLast?_cons]
    cases (ops.filter fun p => equal p.1 k).getLast? <;> rfl

theorem lastAdd_eq_none_iff (equal : K → K → Bool) (k : K) (ops : List (K × V)) :
    lastAdd equal k ops = none ↔ ∀ p ∈ ops, equal p.1 k = false := by
  simp [lastAdd, List.filter_eq_nil_iff]

theorem Shape.find_build {less equal : K → K → Bool} (h : StrictWeakOrder less equal)
    (k : K) (ops : List (K × V)) :
    ∀ s : Shape K V, (Shape.build less equal s ops).find less equal k =
      match lastAdd equal k ops with
      | some v => some v
      | none => s.find less equal k := by
  induction ops with
  | nil => intro s; rfl
  | cons p ops ih =>
    intro s
    rw [Shape.build, ih, lastAdd_cons, Shape.find_ins h]
    cases lastAdd equal k ops with
    | some v => rfl
    | none =>
      cases equal p.1 k <;> simp

theorem findPtr_addAll {less equal : K → K → Bool} (h : StrictWeakOrder less equal)
    (ops : List (K × V)) (k : K) :
    ∃ t, AddAll less equal ops = some t ∧ FindPtr less equal t k = some (lastAdd equal k ops) := by
  obtain ⟨t, ht, hrep⟩ := addAll_spec less equal ops
  refine ⟨t, ht, ?_⟩
  rw [findPtr_spec less equal k hrep, Shape.find_build h]
  cases lastAdd equal k ops <;> rfl

theorem StrictTotalOrder.equal_eq_stdEqual [DecidableEq K] {less equal : K → K → Bool}
    (h : StrictTotalOrder less equal) : equal = stdEqual := by
  funext a b
  by_cases hab : a = b
  · subst hab
    simp [stdEqual, h.toStrictWeakOrder.equal_refl]
  · have : equal a b = false := by
      rcases h.total a b hab with h1 | h1
      · exact h.toStrictWeakOrder.not_equal_of_less h1
      · exact h.toStrictWeakOrder.not_equal_of_less' h1
    simp [stdEqual, hab, this]

theorem stdOrder_strictTotal [LinearOrder K] :
    StrictTotalOrder (stdLess : K → K → Bool) stdEqual where
  irrefl a := by simp [stdLess]
  trans a b c := by
    simp only [stdLess, decide_eq_true_eq]
    exact lt_trans
  incomp_trans a b c := by
    simp only [stdLess, decide_eq_false_iff_not, not_lt]
    intro h1 h2 h3 h4
    exact ⟨h3.trans h1, h2.trans h4⟩
  consistent a b := by
    simp only [stdLess, stdEqual]
    rcases lt_trichotomy a b with h | h | h
    · simp [h, ne_of_lt h]
    · simp [h]
    · simp [h, ne_of_gt h, not_lt_of_gt h]
  total a b hab := by
    simp only [stdLess, decide_eq_true_eq]
    exact lt_or_gt_of_ne hab

theorem Shape.mem_ins_walk (less equal : K → K → Bool) (n : Nat) (key : K) (value : V)
    (s : Shape K V) :
    ∀ p ∈ (s.ins less equal n key value).walk ETraverseType.InOrder,
      p.1 = key ∨ ∃ q ∈ s.walk ETraverseType.InOrder, q.1 = p.1 := by
  induction s with
  | leaf =>
    intro p hp
    simp only [Shape.ins, Shape.walk, List.nil_append, List.mem_singleton] at hp
    exact Or.inl (by rw [hp])
  | node l i k v r ihl ihr =>
    intro p hp
    simp only [Shape.ins] at hp
    split_ifs at hp
    · simp only [Shape.walk, List.mem_append, List.mem_cons] at hp ⊢
      rcases hp with hp | hp | hp
      · exact Or.inr ⟨p, Or.inl hp, rfl⟩
      · exact Or.inr ⟨p, Or.inr (Or.inl hp), rfl⟩
      · rcases ihr p hp with e | ⟨q, hq, e⟩
        · exact Or.inl e
        · exact Or.inr ⟨q, Or.inr (Or.inr hq), e⟩
    · simp only [Shape.walk, List.mem_append, List.mem_cons] at hp ⊢
      rcases hp with hp | hp | hp
      · exact Or.inr ⟨p, Or.inl hp, rfl⟩
      · exact Or.inr ⟨(k, v), Or.inr (Or.inl rfl), by rw [hp]⟩
      · exact Or.inr ⟨p, Or.inr (Or.inr hp), rfl⟩
    · simp only [Shape.walk, List.mem_append, List.mem_cons] at hp ⊢
      rcases hp with hp | hp | hp
      · rcases ihl p hp with e | ⟨q, hq, e⟩
        · exact Or.inl e
        · exact Or.inr ⟨q, Or.inl hq, e⟩
      · exact Or.inr ⟨p, Or.inr (Or.inl hp), rfl⟩
      · exact Or.inr ⟨p, Or.inr (Or.inr hp), rfl⟩

theorem Shape.Ordered.ins_ordered {less equal : K → K → Bool} (h : StrictWeakOrder less equal)
    (n : Nat) (key : K) (value : V) {s : Shape K V} (hs : s.Ordered less) :
    (s.ins less equal n key value).Ordered less := by
  induction s with
  | leaf => simp [Shape.ins, Shape.Ordered, Shape.walk]
  | node l i k v r ihl ihr =>
    obtain ⟨hl, hr, hlk, hrk⟩ := hs
    simp only [Shape.ins]
    cases h1 : less k key
    · cases h2 : equal k key
      · simp only [Bool.false_eq_true, if_false]
        refine ⟨ihl hl, hr, ?_, hrk⟩
        intro p hp
        rcases Shape.mem_ins_walk less equal n key value l p hp with e | ⟨q, hq, e⟩
        · rw [e]; exact h.less_of_not h1 h2
        · rw [← e]; exact hlk q hq
      · simp only [Bool.false_eq_true, if_false, if_true]
        exact ⟨hl, hr, hlk, hrk⟩
    · simp only [if_true]
      refine ⟨hl, ihr hr, hlk, ?_⟩
      intro p hp
      rcases Shape.mem_ins_walk less equal n key value r p hp with e | ⟨q, hq, e⟩
      · rw [e]; exact h1
      · rw [← e]; exact hrk q hq

theorem Shape.Ordered.build_ordered {less equal : K → K → Bool} (h : StrictWeakOrder less equal)
    (ops : List (K × V)) :
    ∀ s : Shape K V, s.Ordered less → (Shape.build less equal s ops).Ordered less := by
  induction ops with
  | nil => intro s hs; exact hs
  | cons p ops ih => intro s hs; exact ih _ (hs.ins_ordered h _ _ _)

theorem Shape.Ordered.pairwise {less equal : K → K → Bool} (h : StrictWeakOrder less equal)
    {s : Shape K V} (hs : s.Ordered less) :
    (s.walk ETraverseType.InOrder).Pairwise fun p q => less p.1 q.1 = true := by
  induction s with
  | leaf => simp [Shape.walk]
  | node l i k v r ihl ihr =>
    obtain ⟨hl, hr, hlk, hrk⟩ := hs
    simp only [Shape.walk, List.pairwise_append, List.pairwise_cons, List.mem_cons]
    refine ⟨ihl hl, ⟨fun q hq => hrk q hq, ihr hr⟩, ?_⟩
    rintro p hp q (rfl | hq)
    · exact hlk p hp
    · exact h.trans _ _ _ (hlk p hp) (hrk q hq)

theorem Shape.find_of_mem {less equal : K → K → Bool} (h : StrictWeakOrder less equal)
    {s : Shape K V} (hs : s.Ordered less) {k key : K} {v : V}
    (hm : (k, v) ∈ s.walk ETraverseType.InOrder) (he : equal k key = true) :
    s.find less equal key = some v := by
  induction s with
  | leaf => simp [Shape.walk] at hm
  | node l i k0 v0 r ihl ihr =>
    obtain ⟨hl, hr, hlk, hrk⟩ := hs
    simp only [Shape.walk, List.mem_append, List.mem_cons] at hm
    simp only [Shape.find]
    rcases hm with hm | hm | hm
    · have h1 : less k k0 = true := hlk _ hm
      have h2 : less key k0 = true := h.less_of_equal_of_less (h.equal_symm he) h1
      have h3 : less k0 key = false := by
        by_contra h4
        have h5 := h.trans _ _ _ h2 (by simpa using h4)
        rw [h.irrefl] at h5
        exact Bool.noConfusion h5
      simp only [h3, Bool.false_eq_true, if_false, h.not_equal_of_less' h2]
      exact ihl hl hm
    · cases hm
      simp [((h.equal_iff k key).mp he).1, he]
    · have h1 : less k0 k = true := hrk _ hm
      have h2 : less k0 key = true := h.less_of_less_of_equal h1 he
      simp only [h2, if_true]
      exact ihr hr hm

theorem Shape.mem_of_find {less equal : K → K → Bool} {s : Shape K V} {key : K} {v : V}
    (hf : s.find less equal key = some v) :
    ∃ k, (k, v) ∈ s.walk ETraverseType.InOrder ∧ equal k key = true := by
  induction s with
  | leaf => simp [Shape.find] at hf
  | node l i k0 v0 r ihl ihr =>
    simp only [Shape.find] at hf
    simp only [Shape.walk, List.mem_append, List.mem_cons]
    split_ifs at hf with h1 h2
    · obtain ⟨k, hk, he⟩ := ihr hf
      exact ⟨k, Or.inr (Or.inr hk), he⟩
    · cases hf
      exact ⟨k0, Or.inr (Or.inl rfl), h2⟩
    · obtain ⟨k, hk, he⟩ := ihl hf
      exact ⟨k, Or.inl hk, he⟩

theorem Shape.find_isSome_iff {less equal : K → K → Bool} (h : StrictWeakOrder less equal)
    {s : Shape K V} (hs : s.Ordered less) (key : K) :
    (s.find less equal key).isSome = true ↔
      ∃ p ∈ s.walk ETraverseType.InOrder, equal p.1 key = true := by
  constructor
  · intro hf
    obtain ⟨v, hv⟩ := Option.isSome_iff_exists.mp hf
    obtain ⟨k, hk, he⟩ := Shape.mem_of_find hv
    exact ⟨(k, v), hk, he⟩
  · rintro ⟨⟨k, v⟩, hp, he⟩
    rw [Shape.find_of_mem h hs hp he]
    rfl

theorem Reachable.exists_ordered_rep {less equal : K → K → Bool}
    (h : StrictWeakOrder less equal) {t : TTree K V} (ht : Reachable less equal t) :
    ∃ s, RepTree t s ∧ s.Ordered less := by
  induction ht with
  | empty => exact ⟨Shape.leaf, RepTree.empty_leaf, trivial⟩
  | add key value _ hadd ih =>
    obtain ⟨s, hs, ho⟩ := ih
    obtain ⟨t', ht', hrep, -⟩ := add_spec less equal key value hs
    rw [ht'] at hadd
    cases hadd
    exact ⟨_, hrep, ho.ins_ordered h _ _ _⟩

theorem Reachable.add_total {less equal : K → K → Bool} {t : TTree K V}
    (ht : Reachable less equal t) (key : K) (value : V) :
    ∃ t', Add less equal t key value = some t' ∧ Reachable less equal t' := by
  obtain ⟨s, hs⟩ := ht.exists_rep
  obtain ⟨t', ht', -, -⟩ := add_spec less equal key value hs
  exact ⟨t', ht', Reachable.add key value ht ht'⟩

theorem reachable_addAllFrom {less equal : K → K → Bool} (ops : List (K × V)) :
    ∀ t t' : TTree K V, Reachable less equal t → AddAllFrom less equal t ops = some t' →
      Reachable less equal t' := by
  induction ops with
  | nil =>
    intro t t' ht h
    simp only [AddAllFrom, Option.some.injEq] at h
    exact h ▸ ht
  | cons p ops ih =>
    intro t t' ht h
    simp only [AddAllFrom] at h
    obtain ⟨t1, ht1, hr1⟩ := ht.add_total p.1 p.2
    rw [ht1] at h
    exact ih t1 t' hr1 h

theorem reachable_addAll {less equal : K → K → Bool} {ops : List (K × V)} {t : TTree K V}
    (h : AddAll less equal ops = some t) : Reachable less equal t :=
  reachable_addAllFrom ops _ _ Reachable.empty h

theorem exampleOps_addAll : AddAll stdLess stdEqual exampleOps = some exampleTree := by
  decide

theorem exampleTree_reachable : Reachable stdLess stdEqual exampleTree :=
  reachable_addAll exampleOps_addAll

theorem Rep.mem_walk {nodes : List (TNode K V)} {s : Shape K V} (h : Rep nodes s)
    {j : Nat} {m : TNode K V} (hj : j ∈ s.idxs) (hm : nodes[j]? = some m) :
    (m.Key, m.Value) ∈ s.walk ETraverseType.InOrder := by
  rw [h.walk_eq, List.mem_filterMap]
  exact ⟨j, hj, by rw [hm]; rfl⟩

theorem Rep.below_mem {nodes : List (TNode K V)} {a j : Nat} (hb : Below nodes a j) :
    ∀ s : Shape K V, Rep nodes s → s ≠ Shape.leaf → s.link = a → j ∈ s.idxs := by
  induction hb with
  | self i =>
    intro s _ hne hl
    exact hl ▸ Shape.link_mem_idxs hne
  | left hn hz _ ih =>
    intro s hs hne hl
    cases s with
    | leaf => exact absurd rfl hne
    | node l i k v r =>
      obtain ⟨hrl, -, hi, -, -⟩ := hs
      rw [Shape.link_node] at hl
      subst hl
      rw [hi] at hn
      cases hn
      have hne' : l ≠ Shape.leaf := by
        rintro rfl
        exact hz rfl
      simp only [Shape.idxs, List.mem_append]
      exact Or.inl (ih l hrl hne' rfl)
  | right hn hz _ ih =>
    intro s hs hne hl
    cases s with
    | leaf => exact absurd rfl hne
    | node l i k v r =>
      obtain ⟨-, hrr, hi, -, -⟩ := hs
      rw [Shape.link_node] at hl
      subst hl
      rw [hi] at hn
      cases hn
      have hne' : r ≠ Shape.leaf := by
        rintro rfl
        exact hz rfl
      simp only [Shape.idxs, List.mem_append, List.mem_cons]
      exact Or.inr (Or.inr (ih r hrr hne' rfl))

theorem Rep.ordered_links {less : K → K → Bool} {nodes : List (TNode K V)} {s : Shape K V}
    (h : Rep nodes s) (ho : s.Ordered less) :
    ∀ i ∈ s.idxs, ∀ n, nodes[i]? = some n →
      (n.Left ≠ 0 → ∀ j m, Below nodes n.Left j → nodes[j]? = some m →
        less m.Key n.Key = true) ∧
      (n.Right ≠ 0 → ∀ j m, Below nodes n.Right j → nodes[j]? = some m →
        less n.Key m.Key = true) := by
  induction s with
  | leaf => intro i hi; simp [Shape.idxs] at hi
  | node l i0 k v r ihl ihr =>
    obtain ⟨hl, hr, hlk, hrk⟩ := ho
    obtain ⟨hrl, hrr, hi0, -, -⟩ := h
    intro i hi n hn
    simp only [Shape.idxs, List.mem_append, List.mem_cons] at hi
    rcases hi with hi | rfl | hi
    · exact ihl hrl hl i hi n hn
    · rw [hi0] at hn
      cases hn
      constructor
      · intro hz j m hb hm
        have hne : l ≠ Shape.leaf := by
          rintro rfl
          exact hz rfl
        exact hlk _ (hrl.mem_walk (Rep.below_mem hb l hrl hne rfl) hm)
      · intro hz j m hb hm
        have hne : r ≠ Shape.leaf := by
          rintro rfl
          exact hz rfl
        exact hrk _ (hrr.mem_walk (Rep.below_mem hb r hrr hne rfl) hm)
    · exact ihr hrr hr i hi n hn

theorem RepTree.mem_idxs {t : TTree K V} {s : Shape K V} (h : RepTree t s) {i : Nat}
    (hi : i < t.Nodes.length) : i ∈ s.idxs :=
  h.2.2.mem_iff.mpr (List.mem_range.mpr hi)

theorem map_set_of_eq {α β : Type} (f : α → β) {xs : List α} {j : Nat} {x y : α}
    (hx : xs[j]? = some x) (hf : f y = f x) : (xs.set j y).map f = xs.map f := by
  apply List.ext_getElem?
  intro i
  rw [List.getElem?_map, List.getElem?_map, List.getElem?_set]
  by_cases hij : j = i
  · subst hij
    have : j < xs.length := (List.getElem?_eq_some_iff.mp hx).1
    simp [this, hx, hf]
  · simp [hij]

theorem AddEffect.keys {less equal : K → K → Bool} {key : K} {value : V}
    {nodes nodes' : List (TNode K V)} {j : Nat} {n : TNode K V}
    (hn : nodes[j]? = some n) (h : AddEffect less equal key value nodes nodes' j n) :
    nodes'.map TNode.Key =
      if less n.Key key = false ∧ equal n.Key key = true then nodes.map TNode.Key
      else nodes.map TNode.Key ++ [key] := by
  rcases h with ⟨h1, h2, rfl⟩ | ⟨h1, -, rfl⟩ | ⟨h1, h2, -, rfl⟩
  · rw [if_pos ⟨h1, h2⟩]
    exact map_set_of_eq _ hn rfl
  · rw [if_neg (by simp [h1]), List.map_append,
      map_set_of_eq TNode.Key (y := { n with Right := nodes.length }) hn rfl]
    rfl
  · rw [if_neg (by simp [h2]), List.map_append,
      map_set_of_eq TNode.Key (y := { n with Left := nodes.length }) hn rfl]
    rfl

theorem RepTree.find_isSome_iff_nodes {less equal : K → K → Bool} (h : StrictWeakOrder less equal)
    {t : TTree K V} {s : Shape K V} (hs : RepTree t s) (ho : s.Ordered less) (key : K) :
    (s.find less equal key).isSome = true ↔ ∃ n ∈ t.Nodes, equal n.Key key = true := by
  rw [Shape.find_isSome_iff h ho]
  constructor
  · rintro ⟨p, hp, he⟩
    have := (hs.walk_perm_nodes ETraverseType.InOrder).mem_iff.mp hp
    obtain ⟨n, hn, rfl⟩ := List.mem_map.mp this
    exact ⟨n, hn, he⟩
  · rintro ⟨n, hn, he⟩
    refine ⟨(n.Key, n.Value), ?_, he⟩
    exact (hs.walk_perm_nodes ETraverseType.InOrder).mem_iff.mpr (List.mem_map.mpr ⟨n, hn, rfl⟩)

theorem add_keys {less equal : K → K → Bool} (h : StrictWeakOrder less equal)
    {t : TTree K V} {s : Shape K V} (hs : RepTree t s) (ho : s.Ordered less)
    (key : K) (value : V) :
    ∃ t', Add less equal t key value = some t' ∧
      RepTree t' (s.ins less equal t.Nodes.length key value) ∧
      t'.Nodes.map TNode.Key =
        if (t.Nodes.map TNode.Key).any (fun x => equal x key) then t.Nodes.map TNode.Key
        else t.Nodes.map TNode.Key ++ [key] := by
  obtain ⟨t', ht', hrep, heff⟩ := add_spec less equal key value hs
  refine ⟨t', ht', hrep, ?_⟩
  rcases heff with ⟨he, he'⟩ | ⟨j, n, hn, heff, hfound⟩
  · simp [he, he', TNode.new]
  · rw [heff.keys hn]
    have hiff := (hs.find_isSome_iff_nodes h ho key).symm.trans hfound
    by_cases hc : less n.Key key = false ∧ equal n.Key key = true
    · have : (t.Nodes.map TNode.Key).any (fun x => equal x key) = true := by
        obtain ⟨m, hm, he⟩ := hiff.mpr hc
        rw [List.any_eq_true]
        exact ⟨m.Key, List.mem_map.mpr ⟨m, hm, rfl⟩, he⟩
      rw [if_pos hc, if_pos this]
    · have : ¬ (t.Nodes.map TNode.Key).any (fun x => equal x key) = true := by
        intro hany
        rw [List.any_eq_true] at hany
        obtain ⟨x, hx, he⟩ := hany
        obtain ⟨m, hm, rfl⟩ := List.mem_map.mp hx
        exact hc (hiff.mp ⟨m, hm, he⟩)
      rw [if_neg hc, if_neg this]

theorem addAllFrom_keys {less equal : K → K → Bool} (h : StrictWeakOrder less equal)
    (ops : List (K × V)) :
    ∀ (t : TTree K V) (s : Shape K V), RepTree t s → s.Ordered less →
      ∃ t', AddAllFrom less equal t ops = some t' ∧
        t'.Nodes.map TNode.Key = distinctFrom equal (t.Nodes.map TNode.Key) (ops.map Prod.fst) := by
  induction ops with
  | nil => intro t s _ _; exact ⟨t, rfl, rfl⟩
  | cons p ops ih =>
    intro t s hs ho
    obtain ⟨t1, ht1, hrep, hkeys⟩ := add_keys h hs ho p.1 p.2
    obtain ⟨t', ht', hk'⟩ := ih t1 _ hrep (ho.ins_ordered h _ _ _)
    refine ⟨t', by simp [AddAllFrom, ht1, ht'], ?_⟩
    rw [hk', hkeys, List.map_cons, distinctFrom]
    split_ifs <;> rfl

theorem RepTree.no_equal_keys {less equal : K → K → Bool} (h : StrictWeakOrder less equal)
    {t : TTree K V} {s : Shape K V} (hs : RepTree t s) (ho : s.Ordered less) :
    ∀ (i j : Nat) (n m : TNode K V), i ≠ j → t.Nodes[i]? = some n → t.Nodes[j]? = some m →
      equal n.Key m.Key = false := by
  have hp := ho.pairwise h
  have hp2 : (s.walk ETraverseType.InOrder).Pairwise
      fun p q => equal p.1 q.1 = false ∧ equal q.1 p.1 = false :=
    hp.imp fun hlt => ⟨h.not_equal_of_less hlt, h.not_equal_of_less' hlt⟩
  have hp3 := (List.Perm.pairwise_iff (fun hxy => And.symm hxy)
    (hs.walk_perm_nodes ETraverseType.InOrder)).mp hp2
  rw [List.pairwise_map, List.pairwise_iff_getElem] at hp3
  intro i j n m hij hn hm
  obtain ⟨hi, rfl⟩ := List.getElem?_eq_some_iff.mp hn
  obtain ⟨hj, rfl⟩ := List.getElem?_eq_some_iff.mp hm
  rcases Nat.lt_or_gt_of_ne hij with hlt | hlt
  · exact (hp3 i j hi hj hlt).1
  · exact (hp3 j i hj hi hlt).2

theorem Shape.ins_ins {less equal : K → K → Bool} (h : StrictWeakOrder less equal)
    (n m : Nat) (key : K) (value : V) (s : Shape K V) :
    (s.ins less equal n key value).ins less equal m key value =
      s.ins less equal n key value := by
  induction s with
  | leaf => simp [Shape.ins, h.irrefl, h.equal_refl]
  | node l i k v r ihl ihr =>
    simp only [Shape.ins]
    cases h1 : less k key
    · cases h2 : equal k key
      · simp [Shape.ins, h1, h2, ihl]
      · simp [Shape.ins, h1, h2]
    · simp [Shape.ins, h1, ihr]

theorem Rep.getElem?_unique {nodes nodes' : List (TNode K V)} {s : Shape K V} (h : Rep nodes s)
    (h' : Rep nodes' s) : ∀ j ∈ s.idxs, nodes[j]? = nodes'[j]? := by
  induction s with
  | leaf => intro j hj; simp [Shape.idxs] at hj
  | node l i k v r ihl ihr =>
    obtain ⟨hl, hr, hi, -, -⟩ := h
    obtain ⟨hl', hr', hi', -, -⟩ := h'
    intro j hj
    simp only [Shape.idxs, List.mem_append, List.mem_cons] at hj
    rcases hj with hj | rfl | hj
    · exact ihl hl hl' j hj
    · rw [hi, hi']
    · exact ihr hr hr' j hj

theorem RepTree.tree_unique {t t' : TTree K V} {s : Shape K V} (h : RepTree t s)
    (h' : RepTree t' s) : t = t' := by
  have hlen : t.Nodes.length = t'.Nodes.length := h.idxs_length.symm.trans h'.idxs_length
  cases t with
  | mk nodes =>
    cases t' with
    | mk nodes' =>
      congr 1
      apply List.ext_getElem?
      intro j
      by_cases hj : j < nodes.length
      · exact h.1.getElem?_unique h'.1 j (h.mem_idxs hj)
      · have hj' : ¬ j < nodes'.length := by
          simp only at hlen
          omega
        rw [List.getElem?_eq_none (by omega), List.getElem?_eq_none (by omega)]

theorem keepLast_subset [DecidableEq K] (ops : List (K × V)) :
    ∀ p ∈ keepLast ops, p ∈ ops := by
  induction ops with
  | nil => intro p hp; simp [keepLast] at hp
  | cons q ops ih =>
    intro p hp
    simp only [keepLast] at hp
    split_ifs at hp
    · exact List.mem_cons_of_mem _ (ih p hp)
    · rcases List.mem_cons.mp hp with rfl | hp
      · exact List.mem_cons_self _ _
      · exact List.mem_cons_of_mem _ (ih p hp)

theorem keepLast_nodup_keys [DecidableEq K] (ops : List (K × V)) :
    ((keepLast ops).map Prod.fst).Nodup := by
  induction ops with
  | nil => simp [keepLast]
  | cons q ops ih =>
    simp only [keepLast]
    split_ifs with hany
    · exact ih
    · rw [List.map_cons, List.nodup_cons]
      refine ⟨?_, ih⟩
      intro hmem
      obtain ⟨p, hp, hpq⟩ := List.mem_map.mp hmem
      apply hany
      rw [List.any_eq_true]
      exact ⟨p, keepLast_subset ops p hp, by simpa using hpq⟩

theorem keepLast_eq_self [DecidableEq K] (ops : List (K × V))
    (hnd : (ops.map Prod.fst).Nodup) : keepLast ops = ops := by
  induction ops with
  | nil => rfl
  | cons q ops ih =>
    rw [List.map_cons, List.nodup_cons] at hnd
    simp only [keepLast]
    rw [if_neg, ih hnd.2]
    intro hany
    rw [List.any_eq_true] at hany
    obtain ⟨p, hp, hpq⟩ := hany
    exact hnd.1 (List.mem_map.mpr ⟨p, hp, by simpa using hpq⟩)

theorem mem_keepLast_iff [DecidableEq K] (ops : List (K × V)) (k : K) (v : V) :
    (k, v) ∈ keepLast ops ↔ lastAdd stdEqual k ops = some v := by
  induction ops with
  | nil => simp [keepLast, lastAdd_nil]
  | cons q ops ih =>
    rw [lastAdd_cons]
    simp only [keepLast]
    split_ifs with hany hq hq
    · -- a later pair has the key of `q`, and `q` has key `k`
      rw [ih]
      rw [List.any_eq_true] at hany
      obtain ⟨p, hp, hpq⟩ := hany
      have hne : lastAdd stdEqual k ops ≠ none := by
        rw [Ne, lastAdd_eq_none_iff]
        intro hall
        have := hall p hp
        simp only [stdEqual, decide_eq_true_eq] at hq
        simp only [decide_eq_true_eq] at hpq
        simp [stdEqual, hpq, hq] at this
      cases hl : lastAdd stdEqual k ops with
      | none => exact absurd hl hne
      | some w => rfl
    · rw [ih]
      cases hl : lastAdd stdEqual k ops <;> simp
    · rw [List.mem_cons, ih]
      simp only [stdEqual, decide_eq_true_eq] at hq
      have hnone : lastAdd stdEqual k ops = none := by
        rw [lastAdd_eq_none_iff]
        intro p hp
        simp only [stdEqual, decide_eq_false_iff_not]
        intro hpk
        apply hany
        rw [List.any_eq_true]
        exact ⟨p, hp, by simp [hpk, hq]⟩
      rw [hnone]
      constructor
      · rintro (e | e)
        · simp [← e]
        · exact absurd e (by simp)
      · intro e
        simp only [Option.some.injEq] at e
        exact Or.inl (Prod.ext hq.symm e.symm)
    · rw [List.mem_cons, ih]
      simp only [stdEqual, decide_eq_true_eq] at hq
      constructor
      · rintro (e | e)
        · exact absurd (congrArg Prod.fst e).symm hq
        · rw [e]
      · intro e
        cases hl : lastAdd stdEqual k ops with
        | none => rw [hl] at e; simp at e
        | some w => rw [hl] at e; exact Or.inr (by rw [← e])

theorem Shape.mem_walk_iff_find {less equal : K → K → Bool} [DecidableEq K]
    (h : StrictTotalOrder less equal) {s : Shape K V} (hs : s.Ordered less) (k : K) (v : V) :
    (k, v) ∈ s.walk ETraverseType.InOrder ↔ s.find less equal k = some v := by
  constructor
  · intro hm
    exact Shape.find_of_mem h.toStrictWeakOrder hs hm (h.toStrictWeakOrder.equal_refl k)
  · intro hf
    obtain ⟨k', hk', he⟩ := Shape.mem_of_find hf
    rw [h.equal_eq_stdEqual] at he
    simp only [stdEqual, decide_eq_true_eq] at he
    exact he ▸ hk'

theorem Shape.build_walk_perm {less equal : K → K → Bool} [DecidableEq K]
    (h : StrictTotalOrder less equal) (ops : List (K × V)) :
    ((Shape.build less equal Shape.leaf ops).walk ETraverseType.InOrder).Perm
      (keepLast ops) := by
  have ho : (Shape.build less equal (Shape.leaf : Shape K V) ops).Ordered less :=
    Shape.Ordered.build_ordered h.toStrictWeakOrder ops _ trivial
  have hpw := ho.pairwise h.toStrictWeakOrder
  have hnd1 : ((Shape.build less equal Shape.leaf ops).walk ETraverseType.InOrder).Nodup := by
    refine hpw.imp ?_
    intro p q hlt hpq
    rw [hpq, h.irrefl] at hlt
    exact Bool.noConfusion hlt
  have hnd2 : (keepLast ops).Nodup := (keepLast_nodup_keys ops).of_map _
  rw [List.perm_ext_iff_of_nodup hnd1 hnd2]
  rintro ⟨k, v⟩
  rw [Shape.mem_walk_iff_find h ho, mem_keepLast_iff, Shape.find_build h.toStrictWeakOrder,
    h.equal_eq_stdEqual]
  cases lastAdd stdEqual k ops <;> simp [Shape.find]

theorem sortByKey_unique [LinearOrder K] {l l' : List (K × V)} (hp : l.Perm l')
    (hs : l.Pairwise fun p q => p.1 < q.1) (hnd : (l'.map Prod.fst).Nodup) :
    l = sortByKey l' := by
  haveI : IsAntisymm (K × V) (fun p q => p.1 < q.1) :=
    ⟨fun p q h1 h2 => absurd h1 (lt_asymm h2)⟩
  have hperm : l.Perm (sortByKey l') := hp.trans (List.perm_insertionSort _ _).symm
  refine List.eq_of_perm_of_sorted hperm hs ?_
  have hs1 : (sortByKey l').Sorted (fun p q => p.1 ≤ q.1) := by
    haveI : IsTotal (K × V) (fun p q => p.1 ≤ q.1) := ⟨fun p q => le_total p.1 q.1⟩
    haveI : IsTrans (K × V) (fun p q => p.1 ≤ q.1) := ⟨fun p q r => le_trans⟩
    exact List.sorted_insertionSort _ _
  have hnd' : ((sortByKey l').map Prod.fst).Nodup :=
    ((List.perm_insertionSort _ l').map Prod.fst).nodup_iff.mpr hnd
  have hne : (sortByKey l').Pairwise (fun p q => p.1 ≠ q.1) :=
    List.pairwise_map.mp hnd'
  exact (List.Pairwise.and hs1 hne).imp fun h => lt_of_le_of_ne h.1 h.2

theorem distinctFrom_subset (equal : K → K → Bool) (ks : List K) :
    ∀ seen : List K, ∀ x ∈ distinctFrom equal seen ks, x ∈ seen ∨ x ∈ ks := by
  induction ks with
  | nil => intro seen x hx; exact Or.inl hx
  | cons k ks ih =>
    intro seen x hx
    simp only [distinctFrom] at hx
    split_ifs at hx
    · rcases ih seen x hx with e | e
      · exact Or.inl e
      · exact Or.inr (List.mem_cons_of_mem _ e)
    · rcases ih _ x hx with e | e
      · rcases List.mem_append.mp e with e | e
        · exact Or.inl e
        · exact Or.inr (by rw [List.mem_singleton.mp e]; exact List.mem_cons_self _ _)
      · exact Or.inr (List.mem_cons_of_mem _ e)

theorem addAll_covers {less equal : K → K → Bool} (h : StrictWeakOrder less equal)
    {ops : List (K × V)} {t : TTree K V} (ht : AddAll less equal ops = some t) :
    ∀ p ∈ ops, ∃ n ∈ t.Nodes, equal n.Key p.1 = true := by
  intro p hp
  obtain ⟨t', ht', hrep⟩ := addAll_spec less equal ops
  rw [ht] at ht'
  cases ht'
  have ho : (Shape.build less equal (Shape.leaf : Shape K V) ops).Ordered less :=
    Shape.Ordered.build_ordered h ops _ trivial
  apply (hrep.find_isSome_iff_nodes h ho p.1).mp
  rw [Shape.find_build h]
  cases hl : lastAdd equal p.1 ops with
  | some v => rfl
  | none =>
    have := (lastAdd_eq_none_iff equal p.1 ops).mp hl p hp
    rw [h.equal_refl] at this
    exact Bool.noConfusion this

/-! ## The claims -/

/-- Claim C1: for every sequence of `Add` calls on an empty container over linearly ordered
keys with the default comparators, the in-order `Traverse` result is the list obtained by
keeping for each distinct key only its last-inserted pair and sorting those pairs by key;
when all inserted keys are unique it is the input sorted by key. -/
theorem C1_inorder_equals_sorted_reference [LinearOrder K] (ops res : List (K × V)) :
    ∃ t, AddAll stdLess stdEqual ops = some t ∧
      Traverse ETraverseType.InOrder t res = some (sortByKey (keepLast ops)) ∧
      ((ops.map Prod.fst).Nodup →
        Traverse ETraverseType.InOrder t res = some (sortByKey ops)) := by
  obtain ⟨t, ht, hrep⟩ := addAll_spec (stdLess : K → K → Bool) stdEqual ops
  have hord : StrictTotalOrder (stdLess : K → K → Bool) stdEqual := stdOrder_strictTotal
  have ho : (Shape.build stdLess stdEqual (Shape.leaf : Shape K V) ops).Ordered stdLess :=
    Shape.Ordered.build_ordered hord.toStrictWeakOrder ops _ trivial
  have hpw : ((Shape.build stdLess stdEqual (Shape.leaf : Shape K V) ops).walk
      ETraverseType.InOrder).Pairwise fun p q => p.1 < q.1 :=
    (ho.pairwise hord.toStrictWeakOrder).imp fun h => by simpa [stdLess] using h
  have hmain : Traverse ETraverseType.InOrder t res = some (sortByKey (keepLast ops)) := by
    rw [traverse_spec ETraverseType.InOrder hrep res,
      sortByKey_unique (Shape.build_walk_perm hord ops) hpw (keepLast_nodup_keys ops)]
  refine ⟨t, ht, hmain, fun hnd => ?_⟩
  rw [hmain, keepLast_eq_self ops hnd]

/-- Instance of C1 on the insertions `(2, "x"), (1, "y")`, whose keys are unique. -/
theorem C1_inorder_equals_sorted_reference_witness :
    ∃ t, AddAll stdLess stdEqual [((2 : Int), "x"), (1, "y")] = some t ∧
      Traverse ETraverseType.InOrder t [] = some [((1 : Int), "y"), (2, "x")] := by
  obtain ⟨t, h1, -, h3⟩ :=
    C1_inorder_equals_sorted_reference [((2 : Int), "x"), (1, "y")] []
  have e : sortByKey [((2 : Int), "x"), (1, "y")] = [((1 : Int), "y"), (2, "x")] := by
    decide
  exact ⟨t, h1, e ▸ h3 (by decide)⟩

/-- Claim C2: for every sequence of `Add` calls on an empty container, with `less` a strict
total order and `equal` consistent with it, `FindPtr(k)` returns the value of the last `Add`
of the sequence whose key equals `k`, and not-found when no `Add` used the key `k`. -/
theorem C2_findPtr_returns_last_added [DecidableEq K] {less equal : K → K → Bool}
    (h : StrictTotalOrder less equal) (ops : List (K × V)) (k : K) :
    ∃ t, AddAll less equal ops = some t ∧
      FindPtr less equal t k = some (lastAdd stdEqual k ops) := by
  obtain ⟨t, ht, hf⟩ := findPtr_addAll h.toStrictWeakOrder ops k
  exact ⟨t, ht, by rw [hf, h.equal_eq_stdEqual]⟩

/-- Instance of C2 on the scenario insertions: key 3 was last added with "d", key 99 never. -/
theorem C2_findPtr_returns_last_added_witness :
    StrictTotalOrder (stdLess : Int → Int → Bool) stdEqual ∧
      (∃ t, AddAll stdLess stdEqual exampleOps = some t ∧
        FindPtr stdLess stdEqual t 3 = some (some "d")) ∧
      (∃ t, AddAll stdLess stdEqual exampleOps = some t ∧
        FindPtr stdLess stdEqual t 99 = some none) := by
  have e1 : lastAdd stdEqual (3 : Int) exampleOps = some "d" := by decide
  have e2 : lastAdd stdEqual (99 : Int) exampleOps = none := by decide
  refine ⟨stdOrder_strictTotal, ?_, ?_⟩
  · obtain ⟨t, h1, h2⟩ := C2_findPtr_returns_last_added stdOrder_strictTotal exampleOps 3
    exact ⟨t, h1, e1 ▸ h2⟩
  · obtain ⟨t, h1, h2⟩ := C2_findPtr_returns_last_added stdOrder_strictTotal exampleOps 99
    exact ⟨t, h1, e2 ▸ h2⟩

/-- Claim C3 as stated, without a condition on the comparators, fails: with `std::less`
and an equality that identifies keys modulo 10, the container holding the single key 5 is
reachable and the key 15 matches the stored key 5, yet `Add(15, "z")` descends to the
right of 5, sets its `Right` link and appends a second node. -/
theorem C3_unconditioned_counterexample :
    Reachable stdLess mod10Equal ({ Nodes := [TNode.new 5 "a"] } : TTree Int String) ∧
      (∃ n ∈ ({ Nodes := [TNode.new 5 "a"] } : TTree Int String).Nodes,
        mod10Equal n.Key 15 = true) ∧
      ∃ t', Add stdLess mod10Equal ({ Nodes := [TNode.new 5 "a"] } : TTree Int String)
          15 "z" = some t' ∧
        t'.Nodes = [TNode.mk 0 1 5 "a" false, TNode.mk 0 0 15 "z" false] ∧
        t'.Nodes.length ≠ ({ Nodes := [TNode.new 5 "a"] } : TTree Int String).Nodes.length :=
  ⟨Reachable.add 5 "a" Reachable.empty rfl, by decide, _, rfl, by decide, by decide⟩

/-- Claim C3, as amended: when the comparators satisfy the precondition of the container
(`less` a strict weak ordering, `equal` consistent with it), on a container reachable via
`Add` an `Add(k, v)` whose key matches a stored key keeps the number of nodes and every
node's links and key, and replaces only the value of the single matching node by `v`. -/
theorem C3_add_existing_key_frame {less equal : K → K → Bool}
    (h : StrictWeakOrder less equal) {t : TTree K V} (ht : Reachable less equal t)
    (k : K) (v : V) (hk : ∃ n ∈ t.Nodes, equal n.Key k = true) :
    ∃ t', Add less equal t k v = some t' ∧
      t'.Nodes.length = t.Nodes.length ∧
      (∀ (i : Nat) (n : TNode K V), t.Nodes[i]? = some n →
        t'.Nodes[i]? = some { n with Value := if equal n.Key k then v else n.Value }) ∧
      (∃ (j : Nat) (n : TNode K V), t.Nodes[j]? = some n ∧ equal n.Key k = true ∧
        ∀ (i : Nat) (m : TNode K V), t.Nodes[i]? = some m → equal m.Key k = true → i = j) := by
  obtain ⟨s, hs, ho⟩ := ht.exists_ordered_rep h
  obtain ⟨t', ht', -, heff⟩ := add_spec less equal k v hs
  have hfind := (hs.find_isSome_iff_nodes h ho k).mpr hk
  rcases heff with ⟨he, -⟩ | ⟨j, n, hn, heff, hfound⟩
  · obtain ⟨n, hn, -⟩ := hk
    rw [he] at hn
    exact absurd hn (List.not_mem_nil _)
  · obtain ⟨h1, h2⟩ := hfound.mp hfind
    have hset : t'.Nodes = t.Nodes.set j { n with Value := v } := by
      rcases heff with ⟨-, -, e⟩ | ⟨h3, -, -⟩ | ⟨-, h3, -, -⟩
      · exact e
      · rw [h1] at h3; exact Bool.noConfusion h3
      · rw [h2] at h3; exact Bool.noConfusion h3
    have huniq : ∀ (i : Nat) (m : TNode K V), t.Nodes[i]? = some m →
        equal m.Key k = true → i = j := by
      intro i m hm he
      by_contra hij
      have := hs.no_equal_keys h ho i j m n hij hm hn
      rw [h.equal_trans he (h.equal_symm h2)] at this
      exact Bool.noConfusion this
    refine ⟨t', ht', by rw [hset, List.length_set], ?_, j, n, hn, h2, huniq⟩
    intro i m hm
    rw [hset, List.getElem?_set]
    by_cases hij : j = i
    · subst hij
      rw [hn] at hm
      cases hm
      simp [(List.getElem?_eq_some_iff.mp hn).1, h2]
    · have hne : equal m.Key k = false := by
        by_contra he
        exact hij (huniq i m hm (by simpa using he)).symm
      simp [hij, hm, hne]

/-- Instance of C3: re-adding key 3 to the scenario container. -/
theorem C3_add_existing_key_frame_witness :
    Reachable stdLess stdEqual exampleTree ∧
      (∃ n ∈ exampleTree.Nodes, stdEqual n.Key 3 = true) ∧
      ∃ t', Add stdLess stdEqual exampleTree 3 "z" = some t' ∧
        t'.Nodes.length = exampleTree.Nodes.length := by
  have hk : ∃ n ∈ exampleTree.Nodes, stdEqual n.Key 3 = true := by decide
  obtain ⟨t', h1, h2, -⟩ := C3_add_existing_key_frame
    stdOrder_strictTotal.toStrictWeakOrder exampleTree_reachable 3 "z" hk
  exact ⟨exampleTree_reachable, hk, t', h1, h2⟩

/-- Claim C4 as stated, without a condition on the comparators, fails: with a comparator
that answers "less" for every pair, the second `Add(7, "q")` on the empty container passes
the node created by the first one and appends another node, so the state and the in-order
`Traverse` result differ from those after one `Add`. -/
theorem C4_unconditioned_counterexample :
    Reachable alwaysLess stdEqual (TTree.empty : TTree Int String) ∧
      ∃ t1 t2, Add alwaysLess stdEqual (TTree.empty : TTree Int String) 7 "q" = some t1 ∧
        Add alwaysLess stdEqual t1 7 "q" = some t2 ∧ t2 ≠ t1 ∧
        Traverse ETraverseType.InOrder t1 [] = some [(7, "q")] ∧
        Traverse ETraverseType.InOrder t2 [] = some [(7, "q"), (7, "q")] ∧
        Traverse ETraverseType.InOrder t2 [] ≠ Traverse ETraverseType.InOrder t1 [] :=
  ⟨Reachable.empty, { Nodes := [TNode.new 7 "q"] },
    { Nodes := [TNode.mk 0 1 7 "q" false, TNode.mk 0 0 7 "q" false] },
    rfl, rfl, by decide, rfl, rfl, by decide⟩

/-- Claim C4, as amended: when the comparators satisfy the precondition of the container
(`less` a strict weak ordering, `equal` consistent with it), on a container reachable via
`Add` performing `Add(k, v)` twice yields the same container state as performing it once,
hence the same `FindPtr(k)` result and the same in-order `Traverse` result. -/
theorem C4_add_twice_same_state {less equal : K → K → Bool}
    (h : StrictWeakOrder less equal) {t : TTree K V} (ht : Reachable less equal t)
    (k : K) (v : V) :
    ∃ t1 t2, Add less equal t k v = some t1 ∧ Add less equal t1 k v = some t2 ∧
      t2 = t1 ∧ FindPtr less equal t2 k = FindPtr less equal t1 k ∧
      FindPtr less equal t1 k = some (some v) ∧
      ∀ res, Traverse ETraverseType.InOrder t2 res = Traverse ETraverseType.InOrder t1 res := by
  obtain ⟨s, hs⟩ := ht.exists_rep
  obtain ⟨t1, ht1, hrep1, -⟩ := add_spec less equal k v hs
  obtain ⟨t2, ht2, hrep2, -⟩ := add_spec less equal k v hrep1
  rw [Shape.ins_ins h] at hrep2
  have e : t2 = t1 := hrep2.tree_unique hrep1
  refine ⟨t1, t2, ht1, ht2, e, by rw [e], ?_, fun res => by rw [e]⟩
  rw [findPtr_spec less equal k hrep1, Shape.find_ins h, h.equal_refl]
  rfl

/-- Instance of C4 on the scenario container with the pair `(7, "q")`. -/
theorem C4_add_twice_same_state_witness :
    StrictWeakOrder (stdLess : Int → Int → Bool) stdEqual ∧
      Reachable stdLess stdEqual exampleTree ∧
      ∃ t1 t2, Add stdLess stdEqual exampleTree 7 "q" = some t1 ∧
        Add stdLess stdEqual t1 7 "q" = some t2 ∧ t2 = t1 := by
  obtain ⟨t1, t2, h1, h2, h3, -⟩ := C4_add_twice_same_state
    stdOrder_strictTotal.toStrictWeakOrder exampleTree_reachable 7 "q"
  exact ⟨stdOrder_strictTotal.toStrictWeakOrder, exampleTree_reachable, t1, t2, h1, h2, h3⟩

/-- Claim C5: the binary-search-tree ordering is an invariant of `Add`: on every reachable
container, for every node `n`, every key in the subtree reached through `n.Left` compares
less than `n.Key`, and `n.Key` compares less than every key in the subtree reached through
`n.Right`. -/
theorem C5_bst_ordering_invariant {less equal : K → K → Bool}
    (h : StrictWeakOrder less equal) {t : TTree K V} (ht : Reachable less equal t)
    (i : Nat) (n : TNode K V) (hn : t.Nodes[i]? = some n) :
    (n.Left ≠ 0 → ∀ (j : Nat) (m : TNode K V), Below t.Nodes n.Left j →
      t.Nodes[j]? = some m → less m.Key n.Key = true) ∧
    (n.Right ≠ 0 → ∀ (j : Nat) (m : TNode K V), Below t.Nodes n.Right j →
      t.Nodes[j]? = some m → less n.Key m.Key = true) := by
  obtain ⟨s, hs, ho⟩ := ht.exists_ordered_rep h
  exact hs.1.ordered_links ho i (hs.mem_idxs (List.getElem?_eq_some_iff.mp hn).1) n hn

/-- Instance of C5 at the root of the scenario container: the key 3 of its left child
compares less than the root key 5. -/
theorem C5_bst_ordering_invariant_witness :
    StrictWeakOrder (stdLess : Int → Int → Bool) stdEqual ∧
      Reachable stdLess stdEqual exampleTree ∧
      stdLess (3 : Int) 5 = true := by
  have hroot : exampleTree.Nodes[0]? =
      some { Left := 1, Right := 2, Key := 5, Value := "a", Deleted := false } := rfl
  have h := C5_bst_ordering_invariant stdOrder_strictTotal.toStrictWeakOrder
    exampleTree_reachable 0 _ hroot
  exact ⟨stdOrder_strictTotal.toStrictWeakOrder, exampleTree_reachable,
    h.1 (by decide) 1 _ (Below.self 1) rfl⟩

/-- Claim C6: on the container built from empty by a sequence of `Add` calls, no two arena
nodes hold `equal` keys, and the number of arena nodes is the number of distinct (pairwise
non-`equal`) keys of the sequence: the arena keys are the first occurrences of the keys of
the sequence, every key of the sequence matches a stored key, and every stored key occurs
in the sequence. -/
theorem C6_one_node_per_distinct_key {less equal : K → K → Bool}
    (h : StrictWeakOrder less equal) (ops : List (K × V)) :
    ∃ t, AddAll less equal ops = some t ∧
      (∀ (i j : Nat) (n m : TNode K V), i ≠ j → t.Nodes[i]? = some n →
        t.Nodes[j]? = some m → equal n.Key m.Key = false) ∧
      t.Nodes.length = (distinctKeys equal (ops.map Prod.fst)).length ∧
      t.Nodes.map TNode.Key = distinctKeys equal (ops.map Prod.fst) ∧
      (∀ p ∈ ops, ∃ n ∈ t.Nodes, equal n.Key p.1 = true) ∧
      (∀ n ∈ t.Nodes, ∃ p ∈ ops, n.Key = p.1) := by
  obtain ⟨t, ht, hkeys⟩ := addAllFrom_keys h ops TTree.empty Shape.leaf RepTree.empty_leaf trivial
  obtain ⟨s, hs, ho⟩ := (reachable_addAll ht).exists_ordered_rep h
  have hk : t.Nodes.map TNode.Key = distinctKeys equal (ops.map Prod.fst) := hkeys
  refine ⟨t, ht, hs.no_equal_keys h ho, ?_, hk, addAll_covers h ht, ?_⟩
  · rw [← hk, List.length_map]
  · intro n hn
    have hmem : n.Key ∈ distinctKeys equal (ops.map Prod.fst) :=
      hk ▸ List.mem_map.mpr ⟨n, hn, rfl⟩
    rcases distinctFrom_subset equal _ [] _ hmem with e | e
    · exact absurd e (List.not_mem_nil _)
    · obtain ⟨p, hp, hpk⟩ := List.mem_map.mp e
      exact ⟨p, hp, hpk.symm⟩

/-- Instance of C6 on the scenario insertions: four calls, three distinct keys, three nodes. -/
theorem C6_one_node_per_distinct_key_witness :
    StrictWeakOrder (stdLess : Int → Int → Bool) stdEqual ∧
      ∃ t, AddAll stdLess stdEqual exampleOps = some t ∧ t.Nodes.length = 3 := by
  obtain ⟨t, h1, -, h3, -⟩ :=
    C6_one_node_per_distinct_key stdOrder_strictTotal.toStrictWeakOrder exampleOps
  have e : (distinctKeys stdEqual (exampleOps.map Prod.fst)).length = 3 := by decide
  exact ⟨stdOrder_strictTotal.toStrictWeakOrder, t, h1, e ▸ h3⟩

/-- Claim C7: on every container reachable via `Add`, the keys of the in-order `Traverse`
result are strictly ascending under `less`: each key compares less than the next one (and
than every later one). -/
theorem C7_inorder_strictly_ascending {less equal : K → K → Bool}
    (h : StrictWeakOrder less equal) {t : TTree K V} (ht : Reachable less equal t)
    (res : List (K × V)) :
    ∃ out, Traverse ETraverseType.InOrder t res = some out ∧
      out.Chain' (fun p q => less p.1 q.1 = true) ∧
      out.Pairwise (fun p q => less p.1 q.1 = true) := by
  obtain ⟨s, hs, ho⟩ := ht.exists_ordered_rep h
  have hp := ho.pairwise h
  exact ⟨_, traverse_spec ETraverseType.InOrder hs res, hp.chain', hp⟩

/-- Instance of C7 on the scenario container. -/
theorem C7_inorder_strictly_ascending_witness :
    StrictWeakOrder (stdLess : Int → Int → Bool) stdEqual ∧
      Reachable stdLess stdEqual exampleTree ∧
      ∃ out, Traverse ETraverseType.InOrder exampleTree [] = some out ∧
        out.Chain' (fun p q => stdLess p.1 q.1 = true) := by
  obtain ⟨out, h1, h2, -⟩ := C7_inorder_strictly_ascending
    stdOrder_strictTotal.toStrictWeakOrder exampleTree_reachable []
  exact ⟨stdOrder_strictTotal.toStrictWeakOrder, exampleTree_reachable, out, h1, h2⟩

/-- Claim C8: on the empty container `FindPtr(k)` returns not-found for every key, and
`Traverse` returns the empty sequence for each of the three orders. -/
theorem C8_empty_container (less equal : K → K → Bool) (k : K) (type : ETraverseType)
    (res : List (K × V)) :
    FindPtr less equal (TTree.empty : TTree K V) k = some none ∧
      Traverse type (TTree.empty : TTree K V) res = some [] := by
  cases type <;> exact ⟨rfl, rfl⟩

/-- Claim C9: the concrete scenario. After `Add(5,"a")`, `Add(3,"b")`, `Add(8,"c")`,
`Add(3,"d")` on an empty `TTree<int, string>`, in-order traversal yields
`[(3,"d"), (5,"a"), (8,"c")]`, pre-order yields `[(5,"a"), (3,"d"), (8,"c")]`, `FindPtr(3)`
yields "d", `FindPtr(8)` yields "c" and `FindPtr(99)` yields not-found. -/
theorem C9_concrete_scenario :
    ∃ t, AddAll stdLess stdEqual [((5 : Int), "a"), (3, "b"), (8, "c"), (3, "d")] = some t ∧
      Traverse ETraverseType.InOrder t [] = some [(3, "d"), (5, "a"), (8, "c")] ∧
      Traverse ETraverseType.PreOrder t [] = some [(5, "a"), (3, "d"), (8, "c")] ∧
      FindPtr stdLess stdEqual t 3 = some (some "d") ∧
      FindPtr stdLess stdEqual t 8 = some (some "c") ∧
      FindPtr stdLess stdEqual t 99 = some none :=
  ⟨exampleTree, by decide, by decide, by decide, by decide, by decide, by decide⟩

/-- Claim C10: on every container reachable via `Add`, each of the pre-order, in-order and
post-order `Traverse` results is a permutation of the list of (key, value) pairs of all
arena nodes, so it has length `Nodes.size()` and the three results have the same multiset
of pairs. -/
theorem C10_traversals_permute_arena {less equal : K → K → Bool} {t : TTree K V}
    (ht : Reachable less equal t) (res : List (K × V)) :
    ∃ pre ino post,
      Traverse ETraverseType.PreOrder t res = some pre ∧
      Traverse ETraverseType.InOrder t res = some ino ∧
      Traverse ETraverseType.PostOrder t res = some post ∧
      pre.Perm (t.Nodes.map fun n => (n.Key, n.Value)) ∧
      ino.Perm (t.Nodes.map fun n => (n.Key, n.Value)) ∧
      post.Perm (t.Nodes.map fun n => (n.Key, n.Value)) ∧
      pre.length = t.Nodes.length ∧ ino.length = t.Nodes.length ∧
      post.length = t.Nodes.length ∧ pre.Perm ino ∧ ino.Perm post := by
  obtain ⟨s, hs⟩ := ht.exists_rep
  have h1 := hs.walk_perm_nodes ETraverseType.PreOrder
  have h2 := hs.walk_perm_nodes ETraverseType.InOrder
  have h3 := hs.walk_perm_nodes ETraverseType.PostOrder
  refine ⟨_, _, _, traverse_spec _ hs res, traverse_spec _ hs res, traverse_spec _ hs res,
    h1, h2, h3, ?_, ?_, ?_, h1.trans h2.symm, h2.trans h3.symm⟩
  · simpa using h1.length_eq
  · simpa using h2.length_eq
  · simpa using h3.length_eq

/-- Instance of C10 on the scenario container, which has three nodes. -/
theorem C10_traversals_permute_arena_witness :
    Reachable stdLess stdEqual exampleTree ∧
      ∃ pre ino post,
        Traverse ETraverseType.PreOrder exampleTree [] = some pre ∧
        Traverse ETraverseType.InOrder exampleTree [] = some ino ∧
        Traverse ETraverseType.PostOrder exampleTree [] = some post ∧
        pre.length = 3 ∧ ino.length = 3 ∧ post.length = 3 ∧ pre.Perm ino ∧ ino.Perm post := by
  obtain ⟨pre, ino, post, h1, h2, h3, -, -, -, h4, h5, h6, h7, h8⟩ :=
    C10_traversals_permute_arena exampleTree_reachable []
  exact ⟨exampleTree_reachable, pre, ino, post, h1, h2, h3, h4, h5, h6, h7, h8⟩

theorem Rep.links_bound {nodes : List (TNode K V)} {s : Shape K V} (h : Rep nodes s) :
    ∀ i ∈ s.idxs, ∀ n, nodes[i]? = some n →
      (n.Left ≠ 0 → i < n.Left ∧ n.Left < nodes.length) ∧
      (n.Right ≠ 0 → i < n.Right ∧ n.Right < nodes.length) := by
  induction s with
  | leaf => intro i hi; simp [Shape.idxs] at hi
  | node l i0 k v r ihl ihr =>
    have hlt := h.idx_lt
    obtain ⟨hl, hr, hi0, hli, hri⟩ := h
    intro i hi n hn
    simp only [Shape.idxs, List.mem_append, List.mem_cons] at hi
    rcases hi with hi | rfl | hi
    · exact ihl hl i hi n hn
    · rw [hi0] at hn
      cases hn
      constructor
      · intro hz
        have hne : l ≠ Shape.leaf := by
          rintro rfl
          exact hz rfl
        have hm := Shape.link_mem_idxs hne
        exact ⟨hli _ hm, hlt _ (by simp [Shape.idxs, hm])⟩
      · intro hz
        have hne : r ≠ Shape.leaf := by
          rintro rfl
          exact hz rfl
        have hm := Shape.link_mem_idxs hne
        exact ⟨hri _ hm, hlt _ (by simp [Shape.idxs, hm])⟩
    · exact ihr hr i hi n hn

theorem Shape.ne_leaf_of_mem {s : Shape K V} {j : Nat} (h : j ∈ s.idxs) : s ≠ Shape.leaf := by
  rintro rfl
  simp [Shape.idxs] at h

theorem Rep.below_root {nodes : List (TNode K V)} {s : Shape K V} (h : Rep nodes s) :
    ∀ j ∈ s.idxs, Below nodes s.link j := by
  induction s with
  | leaf => intro j hj; simp [Shape.idxs] at hj
  | node l i k v r ihl ihr =>
    obtain ⟨hl, hr, hi, hli, hri⟩ := h
    intro j hj
    simp only [Shape.idxs, List.mem_append, List.mem_cons] at hj
    rw [Shape.link_node]
    rcases hj with hj | rfl | hj
    · rcases Shape.child_cases hli with ⟨h1, -⟩ | ⟨-, h2⟩
      · exact absurd h1 (Shape.ne_leaf_of_mem hj)
      · exact Below.left hi h2 (ihl hl j hj)
    · exact Below.self _
    · rcases Shape.child_cases hri with ⟨h1, -⟩ | ⟨-, h2⟩
      · exact absurd h1 (Shape.ne_leaf_of_mem hj)
      · exact Below.right hi h2 (ihr hr j hj)

theorem Shape.rootIdx_eq {s : Shape K V} {i : Nat} (h : ∀ j ∈ s.idxs, i < j) :
    ([s.link].filter fun c => decide (c ≠ 0)) = s.rootIdx := by
  cases s with
  | leaf => simp [Shape.rootIdx, Shape.link_leaf]
  | node l j k v r =>
    have := h j (by simp [Shape.idxs])
    have hj : j ≠ 0 := by omega
    simp [Shape.rootIdx, Shape.link_node, hj]

theorem Rep.links_perm {nodes : List (TNode K V)} {s : Shape K V} (h : Rep nodes s) :
    (s.rootIdx ++ (s.idxs.filterMap fun i => nodes[i]?.map linksOf).flatMap id).Perm
      s.idxs := by
  induction s with
  | leaf => simp [Shape.rootIdx, Shape.idxs]
  | node l i k v r ihl ihr =>
    obtain ⟨hl, hr, hi, hli, hri⟩ := h
    have e : linksOf (TNode.mk l.link r.link k v false) = l.rootIdx ++ r.rootIdx := by
      rw [← Shape.rootIdx_eq hli, ← Shape.rootIdx_eq hri, ← List.filter_append]
      rfl
    have e0 : (Shape.node l i k v r).rootIdx = [i] := rfl
    simp only [e0, Shape.idxs, List.filterMap_append, List.filterMap_cons, hi,
      Option.map_some', List.flatMap_append, List.flatMap_cons, id, e, List.singleton_append]
    have h1 := ihl hl
    have h2 := ihr hr
    refine List.Perm.trans ?_ List.perm_middle.symm
    refine List.Perm.cons i ?_
    refine List.Perm.trans ?_ (h1.append h2)
    simp only [List.append_assoc]
    exact List.perm_append_comm_assoc _ _ _

theorem RepTree.childLinks_perm {t : TTree K V} {s : Shape K V} (h : RepTree t s) :
    (childLinks t.Nodes).Perm (List.range' 1 (t.Nodes.length - 1)) := by
  by_cases he : t.Nodes = []
  · simp [he, childLinks]
  · have hs : s ≠ Shape.leaf := fun e => he (h.leaf_iff.mp e)
    have hpos : 0 < t.Nodes.length := List.length_pos.mpr he
    have h1 := h.1.links_perm
    have h2 : ((s.idxs.filterMap fun i => t.Nodes[i]?.map linksOf).flatMap id).Perm
        (childLinks t.Nodes) := by
      refine ((h.2.2.filterMap _).flatMap_right id).trans ?_
      rw [filterMap_range_getElem?, childLinks, List.flatMap_map]
      exact List.Perm.refl _
    have h3 : s.rootIdx = [0] := by
      cases s with
      | leaf => exact absurd rfl hs
      | node l i k v r =>
        have := h.2.1
        rw [Shape.link_node] at this
        simp [Shape.rootIdx, this]
    rw [h3] at h1
    have h4 : List.range t.Nodes.length = 0 :: List.range' 1 (t.Nodes.length - 1) := by
      rw [List.range_eq_range']
      obtain ⟨m, hm⟩ : ∃ m, t.Nodes.length = m + 1 := ⟨t.Nodes.length - 1, by omega⟩
      rw [hm, List.range'_succ]
      simp
    have h5 := (List.Perm.append_left [0] h2).symm.trans (h1.trans h.2.2)
    rw [h4] at h5
    exact (List.perm_cons 0).mp h5

theorem Shape.walk_ne_nil (type : ETraverseType) {s : Shape K V} (h : s ≠ Shape.leaf) :
    s.walk type ≠ [] := by
  cases s with
  | leaf => exact absurd rfl h
  | node l i k v r => cases type <;> simp [Shape.walk]

theorem Shape.mem_walk_inorder (type : ETraverseType) {s : Shape K V} {p : K × V}
    (h : p ∈ s.walk type) : p ∈ s.walk ETraverseType.InOrder :=
  (Shape.walk_perm_inorder type s).mem_iff.mp h

theorem RepTree.root_node {t : TTree K V} {s : Shape K V} (h : RepTree t s)
    {n : TNode K V} (hn : t.Nodes[0]? = some n) :
    ∃ l r, s = Shape.node l 0 n.Key n.Value r ∧ n.Left = l.link ∧ n.Right = r.link ∧
      (∀ j ∈ l.idxs, 0 < j) ∧ (∀ j ∈ r.idxs, 0 < j) := by
  have he : t.Nodes ≠ [] := by
    intro e
    rw [e] at hn
    simp at hn
  have hs : s ≠ Shape.leaf := fun e => he (h.leaf_iff.mp e)
  cases s with
  | leaf => exact absurd rfl hs
  | node l i k v r =>
    have hi := h.2.1
    rw [Shape.link_node] at hi
    subst hi
    obtain ⟨-, -, h0, hli, hri⟩ := h.1
    rw [h0] at hn
    cases hn
    exact ⟨l, r, rfl, rfl, rfl, hli, hri⟩

theorem walks_distinct {less equal : K → K → Bool} (h : StrictWeakOrder less equal)
    {l r : Shape K V} {i : Nat} {k : K} {v : V}
    (ho : (Shape.node l i k v r).Ordered less) (hl : l ≠ Shape.leaf) (hr : r ≠ Shape.leaf) :
    (Shape.node l i k v r).walk ETraverseType.PreOrder ≠
        (Shape.node l i k v r).walk ETraverseType.InOrder ∧
      (Shape.node l i k v r).walk ETraverseType.InOrder ≠
        (Shape.node l i k v r).walk ETraverseType.PostOrder ∧
      (Shape.node l i k v r).walk ETraverseType.PreOrder ≠
        (Shape.node l i k v r).walk ETraverseType.PostOrder := by
  obtain ⟨-, -, hlk, hrk⟩ := ho
  have hnl : (k, v) ∉ l.walk ETraverseType.InOrder := by
    intro hm
    have := hlk _ hm
    rw [h.irrefl] at this
    exact Bool.noConfusion this
  have hnr : (k, v) ∉ r.walk ETraverseType.InOrder := by
    intro hm
    have := hrk _ hm
    rw [h.irrefl] at this
    exact Bool.noConfusion this
  refine ⟨?_, ?_, ?_⟩
  · intro e
    simp only [Shape.walk] at e
    cases hil : l.walk ETraverseType.InOrder with
    | nil => exact Shape.walk_ne_nil _ hl hil
    | cons a il =>
      rw [hil, List.cons_append] at e
      have ha : (k, v) = a := (List.cons.inj e).1
      exact hnl (by rw [hil, ha]; exact List.mem_cons_self _ _)
  · intro e
    simp only [Shape.walk] at e
    rcases List.eq_nil_or_concat (r.walk ETraverseType.InOrder) with hir | ⟨ir, b, hir⟩
    · exact Shape.walk_ne_nil _ hr hir
    · rw [List.concat_eq_append] at hir
      rw [hir] at e
      have e2 : (l.walk ETraverseType.InOrder ++ (k, v) :: ir) ++ [b] =
          (l.walk ETraverseType.PostOrder ++ r.walk ETraverseType.PostOrder) ++ [(k, v)] := by
        simpa using e
      have e1 := congrArg List.getLast? e2
      rw [List.getLast?_concat, List.getLast?_concat] at e1
      have hb : b = (k, v) := Option.some.inj e1
      exact hnr (by rw [hir, hb]; simp)
  · intro e
    simp only [Shape.walk] at e
    cases hql : l.walk ETraverseType.PostOrder with
    | nil => exact Shape.walk_ne_nil _ hl hql
    | cons a ql =>
      rw [hql, List.cons_append] at e
      have ha : (k, v) = a := (List.cons.inj e).1
      have hm : a ∈ l.walk ETraverseType.PostOrder := by
        rw [hql]; exact List.mem_cons_self _ _
      exact hnl (ha ▸ Shape.mem_walk_inorder _ hm)

theorem Shape.ins_ne_leaf (less equal : K → K → Bool) (n : Nat) (key : K) (value : V)
    (s : Shape K V) : s.ins less equal n key value ≠ Shape.leaf := by
  cases s with
  | leaf => simp [Shape.ins]
  | node l i k v r =>
    simp only [Shape.ins]
    split_ifs <;> simp

theorem Shape.spine_idxs_length (i : Nat) (ops : List (K × V)) :
    (Shape.spine i ops : Shape K V).idxs.length = ops.length := by
  induction ops generalizing i with
  | nil => rfl
  | cons p ops ih => simp [Shape.spine, Shape.idxs, ih]

theorem Shape.ins_spine (less equal : K → K → Bool) (key : K) (value : V)
    (pre : List (K × V)) (hpre : ∀ p ∈ pre, less p.1 key = true) :
    ∀ i n, n = i + pre.length →
      (Shape.spine i pre).ins less equal n key value = Shape.spine i (pre ++ [(key, value)]) := by
  induction pre with
  | nil =>
    intro i n hn
    simp only [List.length_nil, Nat.add_zero] at hn
    subst hn
    rfl
  | cons p pre ih =>
    intro i n hn
    have hp : less p.1 key = true := hpre p (List.mem_cons_self _ _)
    simp only [Shape.spine, List.cons_append, Shape.ins, hp, if_true]
    rw [ih (fun q hq => hpre q (List.mem_cons_of_mem _ hq)) (i + 1) n
      (by rw [hn, List.length_cons]; omega)]
    rfl

theorem Shape.build_spine (less equal : K → K → Bool) (rest : List (K × V)) :
    ∀ pre : List (K × V),
      ((pre ++ rest).map Prod.fst).Pairwise (fun a b => less a b = true) →
      Shape.build less equal (Shape.spine 0 pre) rest = Shape.spine 0 (pre ++ rest) := by
  induction rest with
  | nil => intro pre _; simp [Shape.build]
  | cons q rest ih =>
    intro pre hpw
    have hq : ∀ p ∈ pre, less p.1 q.1 = true := by
      intro p hp
      rw [List.map_append, List.pairwise_append] at hpw
      exact hpw.2.2 p.1 (List.mem_map.mpr ⟨p, hp, rfl⟩) q.1
        (List.mem_map.mpr ⟨q, List.mem_cons_self _ _, rfl⟩)
    rw [Shape.build, Shape.spine_idxs_length,
      Shape.ins_spine less equal q.1 q.2 pre hq 0 pre.length (by omega)]
    have e : pre ++ q :: rest = (pre ++ [(q.1, q.2)]) ++ rest := by simp
    rw [e]
    exact ih _ (e ▸ hpw)

theorem Rep.spine_entries {nodes : List (TNode K V)} (ops : List (K × V)) :
    ∀ b, Rep nodes (Shape.spine b ops) → ∀ (j : Nat) (p : K × V), ops[j]? = some p →
      nodes[b + j]? = some (TNode.mk 0 (if j + 1 < ops.length then b + j + 1 else 0)
        p.1 p.2 false) := by
  induction ops with
  | nil => intro b _ j p hp; simp at hp
  | cons q ops ih =>
    intro b h j p hp
    obtain ⟨-, hr, hb, -, -⟩ := h
    cases j with
    | zero =>
      simp only [List.getElem?_cons_zero, Option.some.injEq] at hp
      subst hp
      rw [Nat.add_zero, hb]
      cases ops with
      | nil => rfl
      | cons q' ops' => simp [Shape.spine, Shape.link_node, Shape.link_leaf]
    | succ j =>
      simp only [List.getElem?_cons_succ] at hp
      have := ih (b + 1) hr j p hp
      have e1 : b + (j + 1) = b + 1 + j := by omega
      rw [e1, this]
      simp only [List.length_cons, Nat.add_lt_add_iff_right]

theorem add_head_key (less equal : K → K → Bool) (key : K) (value : V) {t t' : TTree K V}
    {s : Shape K V} (h : RepTree t s) (hne : t.Nodes ≠ [])
    (hadd : Add less equal t key value = some t') :
    (t'.Nodes.map TNode.Key)[0]? = (t.Nodes.map TNode.Key)[0]? := by
  obtain ⟨t1, ht1, -, heff⟩ := add_spec less equal key value h
  rw [hadd] at ht1
  cases ht1
  rcases heff with ⟨he, -⟩ | ⟨j, n, hn, heff, -⟩
  · exact absurd he hne
  · rw [heff.keys hn]
    split_ifs
    · rfl
    · rw [List.getElem?_append_left]
      rw [List.length_map]
      exact List.length_pos.mpr hne

theorem addAllFrom_head_key (less equal : K → K → Bool) (ops : List (K × V)) :
    ∀ (t t' : TTree K V) (s : Shape K V), RepTree t s → t.Nodes ≠ [] →
      AddAllFrom less equal t ops = some t' →
      (t'.Nodes.map TNode.Key)[0]? = (t.Nodes.map TNode.Key)[0]? := by
  induction ops with
  | nil =>
    intro t t' s _ _ h
    simp only [AddAllFrom, Option.some.injEq] at h
    rw [h]
  | cons p ops ih =>
    intro t t' s hs hne h
    obtain ⟨t1, ht1, hrep, -⟩ := add_spec less equal p.1 p.2 hs
    simp only [AddAllFrom, ht1, Option.some_bind] at h
    have hne1 : t1.Nodes ≠ [] := by
      intro e
      exact Shape.ins_ne_leaf less equal _ p.1 p.2 s (hrep.leaf_iff.mpr e)
    rw [ih t1 t' _ hrep hne1 h]
    exact add_head_key less equal p.1 p.2 hs hne ht1

/-- Claim C11: on every container reachable via `Add` that has at least three nodes and whose
root has both a left and a right child, the pre-order, in-order and post-order `Traverse`
results are pairwise distinct sequences. -/
theorem C11_traversal_orders_distinct {less equal : K → K → Bool}
    (h : StrictWeakOrder less equal) {t : TTree K V} (ht : Reachable less equal t)
    (_hsize : 3 ≤ t.Nodes.length) (n : TNode K V) (hn : t.Nodes[0]? = some n)
    (hleft : n.Left ≠ 0) (hright : n.Right ≠ 0) (res : List (K × V)) :
    ∃ pre ino post,
      Traverse ETraverseType.PreOrder t res = some pre ∧
      Traverse ETraverseType.InOrder t res = some ino ∧
      Traverse ETraverseType.PostOrder t res = some post ∧
      pre ≠ ino ∧ ino ≠ post ∧ pre ≠ post := by
  obtain ⟨s, hs, ho⟩ := ht.exists_ordered_rep h
  obtain ⟨l, r, rfl, hl, hr, -, -⟩ := hs.root_node hn
  have hl' : l ≠ Shape.leaf := by
    rintro rfl
    exact hleft hl
  have hr' : r ≠ Shape.leaf := by
    rintro rfl
    exact hright hr
  obtain ⟨h1, h2, h3⟩ := walks_distinct h ho hl' hr'
  exact ⟨_, _, _, traverse_spec _ hs res, traverse_spec _ hs res, traverse_spec _ hs res,
    h1, h2, h3⟩

/-- Instance of C11 on the scenario container: three nodes, the root has both children. -/
theorem C11_traversal_orders_distinct_witness :
    StrictWeakOrder (stdLess : Int → Int → Bool) stdEqual ∧
      Reachable stdLess stdEqual exampleTree ∧ 3 ≤ exampleTree.Nodes.length ∧
      ∃ pre ino post,
        Traverse ETraverseType.PreOrder exampleTree [] = some pre ∧
        Traverse ETraverseType.InOrder exampleTree [] = some ino ∧
        Traverse ETraverseType.PostOrder exampleTree [] = some post ∧
        pre ≠ ino ∧ ino ≠ post ∧ pre ≠ post :=
  ⟨stdOrder_strictTotal.toStrictWeakOrder, exampleTree_reachable, by decide,
    C11_traversal_orders_distinct stdOrder_strictTotal.toStrictWeakOrder
      exampleTree_reachable (by decide) (TNode.mk 1 2 5 "a" false) rfl (by decide)
      (by decide) []⟩

/-- Claim C12: on every container reachable via `Add` every operation terminates: the
descent loops of `Add` and `FindPtr` finish within `Nodes.size()` iterations (one unit of
fuel per visited node), the recursion of `TraverseInt` from index 0 finishes within depth
`Nodes.size()`, and every followed child link is strictly greater than the index of the
node it is read from. -/
theorem C12_operations_terminate {less equal : K → K → Bool} {t : TTree K V}
    (ht : Reachable less equal t) :
    (∀ key value, ∃ t', Add less equal t key value = some t') ∧
    (t.Nodes ≠ [] → ∀ key value, ∃ nodes',
      AddLoop less equal key value t.Nodes.length t.Nodes 0 = some nodes') ∧
    (∀ key, ∃ r, FindPtr less equal t key = some r) ∧
    (t.Nodes ≠ [] → ∀ key, ∃ r, FindLoop less equal key t.Nodes.length t.Nodes 0 = some r) ∧
    (∀ type res, ∃ out, Traverse type t res = some out) ∧
    (t.Nodes ≠ [] → ∀ type res, ∃ out,
      TraverseInt type t.Nodes.length t.Nodes res 0 = some out) ∧
    (∀ (i : Nat) (n : TNode K V), t.Nodes[i]? = some n →
      (n.Left ≠ 0 → i < n.Left) ∧ (n.Right ≠ 0 → i < n.Right)) := by
  obtain ⟨s, hs⟩ := ht.exists_rep
  refine ⟨?_, ?_, ?_, ?_, ?_, ?_, ?_⟩
  · intro key value
    obtain ⟨t', ht', -⟩ := add_spec less equal key value hs
    exact ⟨t', ht'⟩
  · intro hne key value
    have hsne : s ≠ Shape.leaf := fun e => hne (hs.leaf_iff.mp e)
    have hnd : s.idxs.Nodup := hs.2.2.nodup_iff.mpr (List.nodup_range _)
    obtain ⟨nodes', hrun, -⟩ :=
      addLoop_spec less equal key value hs.1 hsne hnd t.Nodes.length hs.height_le_length
    rw [hs.2.1] at hrun
    exact ⟨nodes', hrun⟩
  · intro key
    exact ⟨_, findPtr_spec less equal key hs⟩
  · intro hne key
    have hsne : s ≠ Shape.leaf := fun e => hne (hs.leaf_iff.mp e)
    have := findLoop_spec less equal key hs.1 hsne t.Nodes.length hs.height_le_length
    rw [hs.2.1] at this
    exact ⟨_, this⟩
  · intro type res
    exact ⟨_, traverse_spec type hs res⟩
  · intro hne type res
    have hsne : s ≠ Shape.leaf := fun e => hne (hs.leaf_iff.mp e)
    have := traverseInt_spec type hs.1 hsne t.Nodes.length res hs.height_le_length
    rw [hs.2.1] at this
    exact ⟨_, this⟩
  · intro i n hn
    have := hs.1.links_bound i (hs.mem_idxs (List.getElem?_eq_some_iff.mp hn).1) n hn
    exact ⟨fun hz => (this.1 hz).1, fun hz => (this.2 hz).1⟩

/-- Instance of C12 on the scenario container. -/
theorem C12_operations_terminate_witness :
    Reachable stdLess stdEqual exampleTree ∧
      (∃ t', Add stdLess stdEqual exampleTree 4 "e" = some t') ∧
      (∃ r, FindPtr stdLess stdEqual exampleTree 4 = some r) ∧
      (∃ out, Traverse ETraverseType.PostOrder exampleTree [] = some out) := by
  have h := C12_operations_terminate exampleTree_reachable
  exact ⟨exampleTree_reachable, h.1 4 "e", h.2.2.1 4, h.2.2.2.2.1 ETraverseType.PostOrder []⟩

/-- Claim C13: on a non-empty container reachable via `Add`, an `Add(k, v)` whose key
matches no stored key appends exactly one node at index `n = Nodes.size()` holding `(k, v)`
with both links 0, changes exactly one child link of exactly one existing node from 0 to
`n`, and leaves every other node unchanged, so the arena size becomes `n + 1`; and under
any `Add` the arena size never decreases. -/
theorem C13_add_new_key_frame {less equal : K → K → Bool} {t : TTree K V}
    (ht : Reachable less equal t) :
    (∀ (k : K) (v : V), t.Nodes ≠ [] → (∀ n ∈ t.Nodes, equal n.Key k = false) →
      ∃ (t' : TTree K V) (j : Nat) (n : TNode K V),
        Add less equal t k v = some t' ∧ t.Nodes[j]? = some n ∧
        ((n.Right = 0 ∧ t'.Nodes =
            t.Nodes.set j { n with Right := t.Nodes.length } ++ [TNode.new k v]) ∨
          (n.Left = 0 ∧ t'.Nodes =
            t.Nodes.set j { n with Left := t.Nodes.length } ++ [TNode.new k v])) ∧
        t'.Nodes.length = t.Nodes.length + 1 ∧
        t'.Nodes[t.Nodes.length]? = some (TNode.mk 0 0 k v false) ∧
        (∀ (i : Nat) (m : TNode K V), i ≠ j → t.Nodes[i]? = some m →
          t'.Nodes[i]? = some m)) ∧
    (∀ (k : K) (v : V), ∃ t', Add less equal t k v = some t' ∧
      t.Nodes.length ≤ t'.Nodes.length) := by
  obtain ⟨s, hs⟩ := ht.exists_rep
  constructor
  · intro k v hne hno
    obtain ⟨t', ht', -, heff⟩ := add_spec less equal k v hs
    rcases heff with ⟨he, -⟩ | ⟨j, n, hn, heff, -⟩
    · exact absurd he hne
    · have hmem : n ∈ t.Nodes := List.getElem?_mem hn
      have hframe : ∀ (i : Nat) (m : TNode K V), i ≠ j → t.Nodes[i]? = some m →
          t'.Nodes[i]? = some m := by
        intro i m hij hm
        rw [heff.getElem?_other i hij (List.getElem?_eq_some_iff.mp hm).1]
        exact hm
      rcases heff with ⟨-, h2, -⟩ | ⟨-, h2, e⟩ | ⟨-, -, h2, e⟩
      · rw [hno n hmem] at h2
        exact Bool.noConfusion h2
      · refine ⟨t', j, n, ht', hn, Or.inl ⟨h2, e⟩, ?_, ?_, hframe⟩
        · rw [e]; simp
        · rw [e, getElem?_set_append_length]; rfl
      · refine ⟨t', j, n, ht', hn, Or.inr ⟨h2, e⟩, ?_, ?_, hframe⟩
        · rw [e]; simp
        · rw [e, getElem?_set_append_length]; rfl
  · intro k v
    obtain ⟨t', ht', -, heff⟩ := add_spec less equal k v hs
    refine ⟨t', ht', ?_⟩
    rcases heff with ⟨he, he'⟩ | ⟨j, n, -, heff, -⟩
    · rw [he, he']; simp
    · rw [heff.length_result]
      split_ifs <;> omega

/-- Instance of C13: adding the new key 7 to the scenario container. -/
theorem C13_add_new_key_frame_witness :
    Reachable stdLess stdEqual exampleTree ∧ exampleTree.Nodes ≠ [] ∧
      (∀ n ∈ exampleTree.Nodes, stdEqual n.Key 7 = false) ∧
      ∃ t', Add stdLess stdEqual exampleTree 7 "q" = some t' ∧
        t'.Nodes.length = exampleTree.Nodes.length + 1 := by
  have hne : exampleTree.Nodes ≠ [] := by decide
  have hno : ∀ n ∈ exampleTree.Nodes, stdEqual n.Key 7 = false := by decide
  obtain ⟨t', j, n, h1, -, -, h2, -⟩ :=
    (C13_add_new_key_frame exampleTree_reachable).1 7 "q" hne hno
  exact ⟨exampleTree_reachable, hne, hno, t', h1, h2⟩

/-- Claim C14: link-structure invariant. On every container reachable via `Add`, every
non-zero link of the node at index `i` is strictly greater than `i` and less than
`Nodes.size()`, no link designates index 0, every index in `1..Nodes.size()-1` occurs as
exactly one child link of exactly one node, and every node is reached from index 0: the
links form a tree rooted at index 0 without cycles (every node of a subtree has an index
at least that of the subtree's root). -/
theorem C14_link_structure {less equal : K → K → Bool} {t : TTree K V}
    (ht : Reachable less equal t) :
    (∀ (i : Nat) (n : TNode K V), t.Nodes[i]? = some n →
      (n.Left ≠ 0 → i < n.Left ∧ n.Left < t.Nodes.length) ∧
      (n.Right ≠ 0 → i < n.Right ∧ n.Right < t.Nodes.length)) ∧
    (childLinks t.Nodes).Perm (List.range' 1 (t.Nodes.length - 1)) ∧
    (∀ c, 1 ≤ c → c < t.Nodes.length → (childLinks t.Nodes).count c = 1) ∧
    (childLinks t.Nodes).count 0 = 0 ∧
    (∀ j, j < t.Nodes.length → Below t.Nodes 0 j) ∧
    (∀ a j, Below t.Nodes a j → a ≤ j) := by
  obtain ⟨s, hs⟩ := ht.exists_rep
  have hperm := hs.childLinks_perm
  have hbound : ∀ (i : Nat) (n : TNode K V), t.Nodes[i]? = some n →
      (n.Left ≠ 0 → i < n.Left ∧ n.Left < t.Nodes.length) ∧
      (n.Right ≠ 0 → i < n.Right ∧ n.Right < t.Nodes.length) := fun i n hn =>
    hs.1.links_bound i (hs.mem_idxs (List.getElem?_eq_some_iff.mp hn).1) n hn
  refine ⟨?_, hperm, ?_, ?_, ?_, ?_⟩
  · intro i n hn
    exact hs.1.links_bound i (hs.mem_idxs (List.getElem?_eq_some_iff.mp hn).1) n hn
  · intro c h1 h2
    rw [hperm.count_eq]
    exact List.count_eq_one_of_mem (List.nodup_range' 1 _)
      (List.mem_range'_1.mpr ⟨h1, by omega⟩)
  · rw [hperm.count_eq, List.count_eq_zero]
    intro hm
    have := (List.mem_range'_1.mp hm).1
    omega
  · intro j hj
    have := hs.1.below_root j (hs.mem_idxs hj)
    rw [hs.2.1] at this
    exact this
  · intro a j hb
    induction hb with
    | self i => exact Nat.le_refl _
    | left hn hz _ ih => exact Nat.le_trans (Nat.le_of_lt ((hbound _ _ hn).1 hz).1) ih
    | right hn hz _ ih => exact Nat.le_trans (Nat.le_of_lt ((hbound _ _ hn).2 hz).1) ih

/-- Instance of C14 on the scenario container: its child links are exactly 1 and 2. -/
theorem C14_link_structure_witness :
    Reachable stdLess stdEqual exampleTree ∧
      (childLinks exampleTree.Nodes).Perm [1, 2] ∧ Below exampleTree.Nodes 0 2 := by
  have h := C14_link_structure exampleTree_reachable
  exact ⟨exampleTree_reachable, h.2.1, h.2.2.2.2.1 2 (by decide)⟩

/-- Claim C15: after any non-empty sequence of `Add` calls on an empty container, the node
at index 0 still holds the key of the first `Add`; the pre-order `Traverse` result begins
with, and the post-order result ends with, the pair of that key and the value currently
stored for it (the value `FindPtr` returns for it when the comparators are a consistent
strict weak ordering). -/
theorem C15_root_keeps_first_key (less equal : K → K → Bool) (k0 : K) (v0 : V)
    (rest res : List (K × V)) :
    ∃ (t : TTree K V) (n : TNode K V) (pre post : List (K × V)),
      AddAll less equal ((k0, v0) :: rest) = some t ∧
      t.Nodes[0]? = some n ∧ n.Key = k0 ∧
      Traverse ETraverseType.PreOrder t res = some pre ∧ pre.head? = some (k0, n.Value) ∧
      Traverse ETraverseType.PostOrder t res = some post ∧
      post.getLast? = some (k0, n.Value) ∧
      (StrictWeakOrder less equal → FindPtr less equal t k0 = some (some n.Value)) := by
  obtain ⟨t, ht, -⟩ := addAll_spec less equal ((k0, v0) :: rest)
  obtain ⟨s, hs⟩ := (reachable_addAll ht).exists_rep
  have h1 : Add less equal (TTree.empty : TTree K V) k0 v0 =
      some { Nodes := [TNode.new k0 v0] } := rfl
  have hfrom : AddAllFrom less equal { Nodes := [TNode.new k0 v0] } rest = some t := by
    have := ht
    simp only [AddAll, AddAllFrom, h1, Option.some_bind] at this
    exact this
  obtain ⟨t1, ht1, hrep1, -⟩ := add_spec less equal k0 v0 (RepTree.empty_leaf (K := K) (V := V))
  rw [h1] at ht1
  cases ht1
  have hkey := addAllFrom_head_key less equal rest _ t _ hrep1 (by simp) hfrom
  have hlen : 0 < t.Nodes.length := by
    by_contra hz
    have : t.Nodes = [] := List.length_eq_zero.mp (by omega)
    rw [this] at hkey
    simp [TNode.new] at hkey
  obtain ⟨n, hn⟩ : ∃ n, t.Nodes[0]? = some n := ⟨t.Nodes[0], List.getElem?_eq_getElem hlen⟩
  have hnk : n.Key = k0 := by
    rw [List.getElem?_map, List.getElem?_map, hn] at hkey
    simpa [TNode.new] using hkey
  obtain ⟨l, r, rfl, -, -, -, -⟩ := hs.root_node hn
  refine ⟨t, n, _, _, ht, hn, hnk, traverse_spec _ hs res, ?_, traverse_spec _ hs res, ?_,
    fun h => ?_⟩
  · simp [Shape.walk, hnk]
  · simp only [Shape.walk, ← List.append_assoc, List.getLast?_concat, hnk]
  · rw [findPtr_spec less equal k0 hs]
    simp [Shape.find, hnk, h.irrefl, h.equal_refl]

/-- Instance of C15 on the scenario insertions, whose first key is 5. -/
theorem C15_root_keeps_first_key_witness :
    StrictWeakOrder (stdLess : Int → Int → Bool) stdEqual ∧
      ∃ (t : TTree Int String) (n : TNode Int String),
        AddAll stdLess stdEqual ((5, "a") :: [(3, "b"), (8, "c"), (3, "d")]) = some t ∧
        t.Nodes[0]? = some n ∧ n.Key = 5 ∧
        FindPtr stdLess stdEqual t 5 = some (some n.Value) := by
  obtain ⟨t, n, pre, post, h1, h2, h3, -, -, -, -, h4⟩ :=
    C15_root_keeps_first_key (stdLess : Int → Int → Bool) stdEqual 5 "a"
      [(3, "b"), (8, "c"), (3, "d")] []
  exact ⟨stdOrder_strictTotal.toStrictWeakOrder, t, n, h1, h2, h3,
    h4 stdOrder_strictTotal.toStrictWeakOrder⟩

/-- Claim C16: degenerate shape. Inserting pairs whose keys are strictly increasing, in
that order, into an empty container yields a right-only chain: node `i` holds the `i`-th
pair, has `Left = 0`, and has `Right = i + 1` when `i` is not the last index and
`Right = 0` when it is. -/
theorem C16_increasing_keys_chain (less equal : K → K → Bool) (ops : List (K × V))
    (hinc : (ops.map Prod.fst).Pairwise fun a b => less a b = true) :
    ∃ t, AddAll less equal ops = some t ∧ t.Nodes.length = ops.length ∧
      ∀ (i : Nat) (p : K × V), ops[i]? = some p →
        t.Nodes[i]? =
          some (TNode.mk 0 (if i + 1 < ops.length then i + 1 else 0) p.1 p.2 false) := by
  obtain ⟨t, ht, hrep⟩ := addAll_spec less equal ops
  have hb : Shape.build less equal (Shape.leaf : Shape K V) ops = Shape.spine 0 ops :=
    Shape.build_spine less equal ops [] hinc
  rw [hb] at hrep
  refine ⟨t, ht, ?_, ?_⟩
  · rw [← hrep.idxs_length, Shape.spine_idxs_length]
  · intro i p hp
    have := Rep.spine_entries ops 0 hrep.1 i p hp
    simpa using this

/-- Instance of C16 on the keys 1 < 2 < 3. -/
theorem C16_increasing_keys_chain_witness :
    (([((1 : Int), "a"), (2, "b"), (3, "c")].map Prod.fst).Pairwise
        fun a b => stdLess a b = true) ∧
      ∃ t, AddAll stdLess stdEqual [((1 : Int), "a"), (2, "b"), (3, "c")] = some t ∧
        t.Nodes.length = 3 ∧
        t.Nodes[1]? = some (TNode.mk 0 2 2 "b" false) ∧
        t.Nodes[2]? = some (TNode.mk 0 0 3 "c" false) := by
  have hinc : ([((1 : Int), "a"), (2, "b"), (3, "c")].map Prod.fst).Pairwise
      fun a b => stdLess a b = true := by decide
  obtain ⟨t, h1, h2, h3⟩ :=
    C16_increasing_keys_chain stdLess stdEqual [((1 : Int), "a"), (2, "b"), (3, "c")] hinc
  exact ⟨hinc, t, h1, h2, h3 1 (2, "b") rfl, h3 2 (3, "c") rfl⟩

/-- Claim C17: on every container reachable via `Add`, every arena index read by `Add`,
`FindPtr` and `TraverseInt` is in bounds: index 0 when the arena is non-empty, every
non-zero stored link, and hence every index reached from 0 by following non-zero links,
is less than `Nodes.size()`; the three operations therefore never take the out-of-bounds
branch and return a result. -/
theorem C17_reads_in_bounds {less equal : K → K → Bool} {t : TTree K V}
    (ht : Reachable less equal t) :
    (t.Nodes ≠ [] → 0 < t.Nodes.length) ∧
    (∀ (i : Nat) (n : TNode K V), t.Nodes[i]? = some n →
      (n.Left ≠ 0 → n.Left < t.Nodes.length) ∧ (n.Right ≠ 0 → n.Right < t.Nodes.length)) ∧
    (t.Nodes ≠ [] → ∀ j, Below t.Nodes 0 j → j < t.Nodes.length) ∧
    (∀ key value, ∃ t', Add less equal t key value = some t') ∧
    (∀ key, ∃ r, FindPtr less equal t key = some r) ∧
    (∀ type res, ∃ out, Traverse type t res = some out) := by
  obtain ⟨s, hs⟩ := ht.exists_rep
  refine ⟨List.length_pos.mpr, ?_, ?_, ?_, ?_, ?_⟩
  · intro i n hn
    have := hs.1.links_bound i (hs.mem_idxs (List.getElem?_eq_some_iff.mp hn).1) n hn
    exact ⟨fun hz => (this.1 hz).2, fun hz => (this.2 hz).2⟩
  · intro hne j hb
    have hsne : s ≠ Shape.leaf := fun e => hne (hs.leaf_iff.mp e)
    exact hs.1.idx_lt j (Rep.below_mem hb s hs.1 hsne hs.2.1)
  · intro key value
    obtain ⟨t', ht', -⟩ := add_spec less equal key value hs
    exact ⟨t', ht'⟩
  · intro key
    exact ⟨_, findPtr_spec less equal key hs⟩
  · intro type res
    exact ⟨_, traverse_spec type hs res⟩

/-- Instance of C17 on the scenario container: the index reached through the root's right
link is in bounds. -/
theorem C17_reads_in_bounds_witness :
    Reachable stdLess stdEqual exampleTree ∧ exampleTree.Nodes ≠ [] ∧
      Below exampleTree.Nodes 0 2 ∧ 2 < exampleTree.Nodes.length := by
  have hne : exampleTree.Nodes ≠ [] := by decide
  have hb : Below exampleTree.Nodes 0 2 :=
    Below.right (n := TNode.mk 1 2 5 "a" false) rfl (by decide) (Below.self 2)
  exact ⟨exampleTree_reachable, hne, hb,
    (C17_reads_in_bounds exampleTree_reachable).2.2.1 hne 2 hb⟩

/-- Claim C18: `Traverse` overwrites its output rather than appending: for every container
state, every order and any two initial contents of `res`, the resulting contents are the
same, namely those obtained from an empty `res`; on the empty container the result is
empty; and on a container reachable via `Add` the common result exists. -/
theorem C18_traverse_overwrites_output (less equal : K → K → Bool) (type : ETraverseType)
    (t : TTree K V) (res1 res2 : List (K × V)) :
    Traverse type t res1 = Traverse type t res2 ∧
    Traverse type t res1 = Traverse type t [] ∧
    Traverse type (TTree.empty : TTree K V) res1 = some [] ∧
    (Reachable less equal t →
      ∃ out, Traverse type t res1 = some out ∧ Traverse type t res2 = some out) := by
  refine ⟨rfl, rfl, rfl, fun ht => ?_⟩
  obtain ⟨s, hs⟩ := ht.exists_rep
  exact ⟨_, traverse_spec type hs res1, traverse_spec type hs res2⟩

/-- Instance of C18 on the scenario container with two different initial outputs. -/
theorem C18_traverse_overwrites_output_witness :
    Reachable stdLess stdEqual exampleTree ∧
      ∃ out, Traverse ETraverseType.InOrder exampleTree [(1, "zz")] = some out ∧
        Traverse ETraverseType.InOrder exampleTree [] = some out :=
  ⟨exampleTree_reachable,
    (C18_traverse_overwrites_output stdLess stdEqual ETraverseType.InOrder exampleTree
      [(1, "zz")] []).2.2.2 exampleTree_reachable⟩

end BST
